import Mathlib

/-!
MineSweeper_Clone: a shallow embedding of `main.cpp`

The classes `Cell` and `Board` of `src/main.cpp` are embedded as Lean structures and the
member functions as pure functions that pass the board state explicitly.

Modelling conventions.

* C++ `int` values are mathematical integers (`Int`).  The product `n * n` in the
  constructor of `Board` leaves the 32-bit range from `n = 46341` on; its value is taken
  modulo `2^32` (`wrapInt`) and the division by 6 truncates towards zero, as on every
  mainstream compiler.  Coordinate arithmetic `x + dx` is only ever performed on
  coordinates that passed `isValid`, so it stays in range; `n + 1` leaves the range only for
  `n = INT_MAX`, a size for which no grid can be allocated.
* `vector<vector<Cell>> grid` is a list of rows, `grid[y][x]` is `cellAt b x y`.  Reading or
  writing outside the vector is undefined behaviour in C++; the source guards every access
  with `isValid` or a loop bound, and the theorems assume a well-formed grid (`WF`).
* The random generator of `placeMines` is a list of samples `(x, y)`, consumed from the
  front; the loop does not finish (`none`) when the list runs out before `numMines` mines
  are placed.
* The recursion of `revealEmpty` carries a depth bound (fuel); `revealEmpty` supplies one
  more than the number of unrevealed cells, which is shown to be enough.
* Memory allocation always succeeds; stack depth is unbounded.
* `Game::play` is run on the list of entered coordinate pairs; `display` and `revealAll`
  only print and are left out.
-/

namespace MineSweeper

/-- The value a 32-bit two's-complement `int` holds when the exact result is `v`. -/
def wrapInt (v : Int) : Int := (v + 2147483648) % 4294967296 - 2147483648

/-! ## class Cell -/

/-- The fields of `class Cell`. -/
structure Cell where
  isMine : Bool
  isRevealed : Bool
  adjacentMines : Int
deriving DecidableEq

/-- The constructor `Cell() : isMine(false), isRevealed(false), adjacentMines(0)`. -/
def Cell.create : Cell := { isMine := false, isRevealed := false, adjacentMines := 0 }

/-- Member `void setMine(bool mine)`: `isMine = mine`. -/
def Cell.setMine (c : Cell) (mine : Bool) : Cell := { c with isMine := mine }

/-- Member `bool hasMine() const`: returns `isMine`. -/
def Cell.hasMine (c : Cell) : Bool := c.isMine

/-- Member `void reveal()`: `isRevealed = true`. -/
def Cell.reveal (c : Cell) : Cell := { c with isRevealed := true }

/-- Member `bool isOpen() const`: returns `isRevealed`. -/
def Cell.isOpen (c : Cell) : Bool := c.isRevealed

/-- Member `void setAdjacentMines(int count)`: `adjacentMines = count`. -/
def Cell.setAdjacentMines (c : Cell) (count : Int) : Cell := { c with adjacentMines := count }

/-- Member `int getAdjacentMines() const`: returns `adjacentMines`. -/
def Cell.getAdjacentMines (c : Cell) : Int := c.adjacentMines

/-! ## class Board -/

/-- The fields of `class Board`. -/
structure Board where
  grid : List (List Cell)
  size : Int
  numMines : Int
  firstMove : Bool
deriving DecidableEq

/-- The cell `grid[y][x]`. -/
def Board.cellAt (b : Board) (x y : Int) : Cell :=
  (b.grid.getD y.toNat []).getD x.toNat Cell.create

/-- The board after the assignment `grid[y][x] = c`. -/
def Board.setCell (b : Board) (x y : Int) (c : Cell) : Board :=
  { b with grid := b.grid.set y.toNat ((b.grid.getD y.toNat []).set x.toNat c) }

/-- Member `bool isValid(int x, int y) const`. -/
def Board.isValid (b : Board) (x y : Int) : Bool :=
  decide (x ≥ 1) && decide (x ≤ b.size) && decide (y ≥ 1) && decide (y ≤ b.size)

/-- The values `1, 2, ..., n` taken by a loop `for (int i = 1; i <= n; i++)`. -/
def loopRange (n : Int) : List Int :=
  (List.range n.toNat).map (fun (i : Nat) => Int.ofNat i + 1)

/-- The pairs `(dx, dy)` visited by `for dy in -1..1; for dx in -1..1; skip (0,0)`, in order. -/
def offsets : List (Int × Int) :=
  (([-1, 0, 1] : List Int).flatMap (fun dy => ([-1, 0, 1] : List Int).map (fun dx => (dx, dy)))).filter
    (fun p => !(p.1 == 0 && p.2 == 0))

/-- The inner two loops of `calculateAdjacentMines`: the value of `count` for cell `(x, y)`. -/
def Board.countAround (b : Board) (x y : Int) : Int :=
  offsets.foldl
    (fun count p =>
      if b.isValid (x + p.1) (y + p.2) && (b.cellAt (x + p.1) (y + p.2)).hasMine
      then count + 1 else count)
    0

/-- The body of the `x` loop of `calculateAdjacentMines`. -/
def Board.calcCell (b : Board) (x y : Int) : Board :=
  if !(b.cellAt x y).hasMine then
    b.setCell x y ((b.cellAt x y).setAdjacentMines (b.countAround x y))
  else b

/-- Member `void calculateAdjacentMines()`: the two outer loops over `y` and `x`. -/
def Board.calculateAdjacentMines (b : Board) : Board :=
  (loopRange b.size).foldl
    (fun b1 y => (loopRange b.size).foldl (fun b2 x => b2.calcCell x y) b1) b

/-- The `while (minesPlaced < numMines)` loop of `placeMines`, drawing from `samples`. -/
def Board.placeLoop (firstX firstY : Int) : List (Int × Int) → Board → Int → Option Board
  | [], b, minesPlaced => if minesPlaced < b.numMines then none else some b
  | (x, y) :: rest, b, minesPlaced =>
    if minesPlaced < b.numMines then
      if !(b.cellAt x y).hasMine && (x != firstX || y != firstY) then
        Board.placeLoop firstX firstY rest (b.setCell x y ((b.cellAt x y).setMine true))
          (minesPlaced + 1)
      else Board.placeLoop firstX firstY rest b minesPlaced
    else some b

/-- Member `void placeMines(int firstX, int firstY)`: the loop, then
`calculateAdjacentMines()`. -/
def Board.placeMines (b : Board) (firstX firstY : Int) (samples : List (Int × Int)) :
    Option Board :=
  (Board.placeLoop firstX firstY samples b 0).map Board.calculateAdjacentMines

/-- The eight calls `revealEmpty(x + dx, y + dy)` in sequence, each on the state left by
the previous one; `f` is the recursive call. -/
def revealAround (f : Board → Int → Int → Option Board) (x y : Int) :
    List (Int × Int) → Board → Option Board
  | [], b => some b
  | p :: rest, b =>
    match f b (x + p.1) (y + p.2) with
    | none => none
    | some b1 => revealAround f x y rest b1

/-- Member `void revealEmpty(int x, int y)` with recursion depth at most `fuel`; `none` when
the depth bound is hit. -/
def Board.revealEmptyAux : Nat → Board → Int → Int → Option Board
  | 0, _, _, _ => none
  | fuel + 1, b, x, y =>
    if !b.isValid x y || (b.cellAt x y).isOpen then some b
    else
      let b1 := b.setCell x y (b.cellAt x y).reveal
      if (b1.cellAt x y).getAdjacentMines == 0 then
        revealAround (Board.revealEmptyAux fuel) x y offsets b1
      else some b1

/-- The number of cells of `[1,size] x [1,size]` that are not revealed. -/
def Board.unrevealedCount (b : Board) : Nat :=
  ((loopRange b.size).map
    (fun y => (loopRange b.size).countP (fun x => !(b.cellAt x y).isOpen))).sum

/-- Member `void revealEmpty(int x, int y)`, with a depth bound of one more than the number
of unrevealed cells (enough by `revealEmptyAux_spec`, immaterial by `revealEmptyAux_succ`). -/
def Board.revealEmpty (b : Board) (x y : Int) : Option Board :=
  b.revealEmptyAux (b.unrevealedCount + 1) x y

/-- The constructor `Board(int n)`: throws `invalid_argument` when `n < 9`. -/
def Board.create (n : Int) : Except String Board :=
  if n < 9 then Except.error "Board size must be at least 9"
  else Except.ok
    { grid := List.replicate (n + 1).toNat (List.replicate (n + 1).toNat Cell.create)
      size := n
      numMines := Int.tdiv (wrapInt (n * n)) 6
      firstMove := true }

/-- The assignment `firstMove = false`. -/
def Board.clearFirstMove (b : Board) : Board := { b with firstMove := false }

/-- Member `bool makeMove(int x, int y)`: the returned flag and the board afterwards; `none`
when mine placement does not finish on `samples`. -/
def Board.makeMove (b : Board) (x y : Int) (samples : List (Int × Int)) :
    Option (Bool × Board) :=
  if !b.isValid x y then some (false, b)
  else
    let placed : Option Board :=
      if b.firstMove then (b.placeMines x y samples).map Board.clearFirstMove
      else some b
    match placed with
    | none => none
    | some b1 =>
      if (b1.cellAt x y).hasMine then some (false, b1)
      else
        match b1.revealEmpty x y with
        | none => none
        | some b2 => some (true, b2)

/-- Member `bool checkWin() const`. -/
def Board.checkWin (b : Board) : Bool :=
  (loopRange b.size).all
    (fun y => (loopRange b.size).all
      (fun x => !(!(b.cellAt x y).hasMine && !(b.cellAt x y).isOpen)))

/-! ## Specification vocabulary -/

/-- The grid has `size + 1` rows of `size + 1` cells, as allocated by the constructor. -/
def Board.WF (b : Board) : Prop :=
  b.grid.length = (b.size + 1).toNat ∧ ∀ row ∈ b.grid, row.length = (b.size + 1).toNat

/-- The coordinates `[1,size] x [1,size]` of the playing field. -/
def Board.cells (b : Board) : Finset (Int × Int) :=
  Finset.Icc 1 b.size ×ˢ Finset.Icc 1 b.size

/-- The cells of the playing field that have a mine. -/
def Board.mineCells (b : Board) : Finset (Int × Int) :=
  b.cells.filter (fun p => (b.cellAt p.1 p.2).isMine = true)

/-- The displacements `(dx, dy)` with `dx, dy` in `{-1, 0, 1}`, not both zero, for which
`(x + dx, y + dy)` lies in `[1,size] x [1,size]` and has a mine. -/
def Board.minedNeighbours (b : Board) (x y : Int) : Finset (Int × Int) :=
  ((({-1, 0, 1} : Finset Int) ×ˢ ({-1, 0, 1} : Finset Int)).filter
    (fun d => ¬ (d.1 = 0 ∧ d.2 = 0))).filter
    (fun d => 1 ≤ x + d.1 ∧ x + d.1 ≤ b.size ∧ 1 ≤ y + d.2 ∧ y + d.2 ≤ b.size ∧
      (b.cellAt (x + d.1) (y + d.2)).isMine = true)

/-- The boards `b` and `b1` agree on everything but the adjacency counts of their cells. -/
structure Board.SameButCounts (b b1 : Board) : Prop where
  size_eq : b1.size = b.size
  numMines_eq : b1.numMines = b.numMines
  firstMove_eq : b1.firstMove = b.firstMove
  wf : b1.WF
  isMine_eq : ∀ u v, (b1.cellAt u v).isMine = (b.cellAt u v).isMine
  isRevealed_eq : ∀ u v, (b1.cellAt u v).isRevealed = (b.cellAt u v).isRevealed

/-- The boards `b` and `b1` agree on everything but the mine flags of their cells. -/
structure Board.SameButMines (b b1 : Board) : Prop where
  size_eq : b1.size = b.size
  numMines_eq : b1.numMines = b.numMines
  firstMove_eq : b1.firstMove = b.firstMove
  wf : b1.WF
  isRevealed_eq : ∀ u v, (b1.cellAt u v).isRevealed = (b.cellAt u v).isRevealed
  adjacentMines_eq : ∀ u v, (b1.cellAt u v).adjacentMines = (b.cellAt u v).adjacentMines

/-- A sample sequence for a 9 x 9 board; it repeats a cell and hits the first-click cell. -/
def demoSamples : List (Int × Int) :=
  [(1, 1), (5, 5), (2, 3), (9, 9), (1, 1), (4, 4), (4, 5), (4, 6), (5, 4), (5, 6), (6, 4),
    (6, 5), (6, 6), (9, 1), (1, 9), (7, 2), (3, 8), (8, 8)]

instance (b : Board) : Decidable b.WF := by
  unfold Board.WF; infer_instance

/-- A 3 x 3 board with mines placed at (1,1) and (3,2), counts computed, nothing revealed. -/
def smallBoard : Board :=
  Board.calculateAdjacentMines
    { grid := [[Cell.create, Cell.create, Cell.create, Cell.create],
               [Cell.create, Cell.create.setMine true, Cell.create, Cell.create],
               [Cell.create, Cell.create, Cell.create, Cell.create.setMine true],
               [Cell.create, Cell.create, Cell.create, Cell.create]]
      size := 3
      numMines := 2
      firstMove := false }

/-- The cells of the playing field that are not revealed. -/
def Board.unrevealedCells (b : Board) : Finset (Int × Int) :=
  b.cells.filter (fun p => (b.cellAt p.1 p.2).isRevealed = false)

/-- Cell `(u, v)` is one of the eight neighbours of `(x, y)`: the two differ, by at most one
in each coordinate. -/
def Adjacent (x y u v : Int) : Prop :=
  (u - x).natAbs ≤ 1 ∧ (v - y).natAbs ≤ 1 ∧ ¬ (u = x ∧ v = y)

instance (x y u v : Int) : Decidable (Adjacent x y u v) := by
  unfold Adjacent; infer_instance

/-- There is a path `(x, y) = c0, c1, ..., ck = (u, v)` of in-grid cells, each a neighbour of
the previous one and each unrevealed in `b`, in which `c0 .. c(k-1)` have adjacency count 0. -/
inductive Board.FloodPath (b : Board) : Int → Int → Int → Int → Prop
  | stop (x y : Int) :
      b.isValid x y = true → (b.cellAt x y).isRevealed = false → Board.FloodPath b x y x y
  | step (x y x1 y1 u v : Int) :
      b.isValid x y = true → (b.cellAt x y).isRevealed = false →
      (b.cellAt x y).adjacentMines = 0 → Adjacent x y x1 y1 →
      Board.FloodPath b x1 y1 u v → Board.FloodPath b x y u v

/-- Board `b1` is `b` with possibly more cells revealed: sizes, mine count, first-move flag,
grid dimensions, mine flags and adjacency counts agree, and revealed cells stay revealed. -/
structure Board.RevealsOnly (b b1 : Board) : Prop where
  size_eq : b1.size = b.size
  numMines_eq : b1.numMines = b.numMines
  firstMove_eq : b1.firstMove = b.firstMove
  wf : b1.WF
  isMine_eq : ∀ u v, (b1.cellAt u v).isMine = (b.cellAt u v).isMine
  adjacentMines_eq : ∀ u v, (b1.cellAt u v).adjacentMines = (b.cellAt u v).adjacentMines
  mono : ∀ u v, (b.cellAt u v).isRevealed = true → (b1.cellAt u v).isRevealed = true

/-- What one call `revealEmpty(x, y)` taking `b` to `b1` achieves: it only reveals cells, it
reveals the start cell when that is in the grid, every newly revealed cell is the end of a
flood path from the start, and every newly revealed cell with count 0 has all its in-grid
neighbours revealed. -/
structure Board.FloodSpec (b : Board) (x y : Int) (b1 : Board) : Prop where
  only : b.RevealsOnly b1
  start : b.isValid x y = true → (b1.cellAt x y).isRevealed = true
  sound : ∀ u v, (b1.cellAt u v).isRevealed = true → (b.cellAt u v).isRevealed = false →
    b.FloodPath x y u v
  closed : ∀ u v, (b1.cellAt u v).isRevealed = true → (b.cellAt u v).isRevealed = false →
    (b.cellAt u v).adjacentMines = 0 →
    ∀ s t, Adjacent u v s t → b.isValid s t = true → (b1.cellAt s t).isRevealed = true

/-- Cell `(u, v)` lies in the connected region of in-grid cells with adjacency count 0 that
contains `(x, y)`: it is reached from `(x, y)` through neighbouring zero-count cells. The
region is empty when `(x, y)` itself has a non-zero count. -/
inductive Board.ZeroRegion (b : Board) (x y : Int) : Int → Int → Prop
  | start : b.isValid x y = true → (b.cellAt x y).adjacentMines = 0 →
      Board.ZeroRegion b x y x y
  | grow (u v s t : Int) : Board.ZeroRegion b x y u v → Adjacent u v s t →
      b.isValid s t = true → (b.cellAt s t).adjacentMines = 0 → Board.ZeroRegion b x y s t

/-- The board states reachable from `Board(n)` by calls of `makeMove` that return, with any
coordinates and any samples drawn from `[1,size] x [1,size]`. -/
inductive Board.Reachable (n : Int) : Board → Prop
  | init (b : Board) : Board.create n = Except.ok b → Board.Reachable n b
  | move (b : Board) (x y : Int) (samples : List (Int × Int)) (r : Bool) (b1 : Board) :
      Board.Reachable n b → (∀ p ∈ samples, b.isValid p.1 p.2 = true) →
      b.makeMove x y samples = some (r, b1) → Board.Reachable n b1

/-- Every in-grid cell without a mine stores the number of its mined in-grid neighbours. -/
def Board.CountsCorrect (b : Board) : Prop :=
  ∀ x y, b.isValid x y = true → (b.cellAt x y).isMine = false →
    (b.cellAt x y).adjacentMines = ((b.minedNeighbours x y).card : Int)

/-- The invariant of reachable states: the grid is well formed; before the first move every
cell is as constructed; afterwards the adjacency counts are correct; no mine is revealed. -/
structure Board.Inv (b : Board) : Prop where
  wf : b.WF
  fresh : b.firstMove = true → ∀ u v, b.cellAt u v = Cell.create
  counts : b.firstMove = false → b.CountsCorrect
  safe : ∀ u v, (b.cellAt u v).isRevealed = true → (b.cellAt u v).isMine = false

/-- The board `Board(9)` as constructed. -/
def demoStart : Board :=
  { grid := List.replicate 10 (List.replicate 10 Cell.create)
    size := 9
    numMines := 13
    firstMove := true }

/-- The board after the opening move `makeMove(5, 5)` on `demoStart` with `demoSamples`. -/
def demoAfter : Board :=
  ((demoStart.makeMove 5 5 demoSamples).map Prod.snd).getD demoStart

/-- The board states reached from `b` by any number of further `makeMove` calls that
return, with any coordinates and any samples. -/
inductive Board.Later (b : Board) : Board → Prop
  | refl : Board.Later b b
  | move (b1 : Board) (x y : Int) (samples : List (Int × Int)) (r : Bool) (b2 : Board) :
      Board.Later b b1 → b1.makeMove x y samples = some (r, b2) → Board.Later b b2

/-- The cells of the playing field that are revealed. -/
def Board.revealedCells (b : Board) : Finset (Int × Int) :=
  b.cells.filter (fun p => (b.cellAt p.1 p.2).isRevealed = true)

/-- Further invariants of the states reachable from `Board(n)`: size and `numMines` are
those of the constructor; once mines are placed their number is `numMines` (none when that
is negative); every adjacency count lies in `0..8` and is 0 on a mine; every revealed cell
with count 0 has all its in-grid neighbours revealed. -/
structure Board.Inv2 (n : Int) (b : Board) : Prop where
  size_eq : b.size = n
  numMines_eq : b.numMines = Int.tdiv (wrapInt (n * n)) 6
  mines : b.firstMove = false → (b.mineCells.card : Int) = max 0 b.numMines
  range : ∀ u v, 0 ≤ (b.cellAt u v).adjacentMines ∧ (b.cellAt u v).adjacentMines ≤ 8 ∧
    ((b.cellAt u v).isMine = true → (b.cellAt u v).adjacentMines = 0)
  closed : ∀ u v, (b.cellAt u v).isRevealed = true → (b.cellAt u v).adjacentMines = 0 →
    ∀ s t, Adjacent u v s t → b.isValid s t = true → (b.cellAt s t).isRevealed = true

/-- The board after the second move `makeMove(4, 1)`, on a cell with count 0. -/
def demoAfter2 : Board :=
  ((demoAfter.makeMove 4 1 []).map Prod.snd).getD demoAfter

/-! ## class Game -/

/-- The fields of `class Game`. -/
structure Game where
  board : Board
deriving DecidableEq

/-- The two ways the loop of `Game::play` is left: "You hit a mine!" and "You won!". -/
inductive Outcome where
  | lost
  | won
deriving DecidableEq

/-- One iteration of the `while (true)` loop of `Game::play` on the entered pair `(x, y)`:
`some o` when the loop breaks with outcome `o`, `none` when it goes round again. Printing
(`display`, `revealAll`) does not touch the state and is left out. -/
def Game.turn (g : Game) (samples : List (Int × Int)) (x y : Int) :
    Option (Option Outcome × Game) :=
  match g.board.makeMove x y samples with
  | none => none
  | some (false, b1) => some (some Outcome.lost, { board := b1 })
  | some (true, b1) =>
    if b1.checkWin then some (some Outcome.won, { board := b1 })
    else some (none, { board := b1 })

/-- Member `void play()` run on the list of entered coordinate pairs: the outcome, or `none`
as outcome when the loop is still waiting for input after the last pair. -/
def Game.play (samples : List (Int × Int)) : List (Int × Int) → Game →
    Option (Option Outcome × Game)
  | [], g => some (none, g)
  | (x, y) :: rest, g =>
    match g.turn samples x y with
    | none => none
    | some (some o, g1) => some (some o, g1)
    | some (none, g1) => Game.play samples rest g1

/-- The board after the move `makeMove(1, 3)` on `smallBoard`, which floods four cells. -/
def smallAfter : Board :=
  ((smallBoard.makeMove 1 3 []).map Prod.snd).getD smallBoard

end MineSweeper

/-! ## Basic facts about the grid -/

namespace MineSweeper

theorem isValid_iff (b : Board) (x y : Int) :
    b.isValid x y = true ↔ 1 ≤ x ∧ x ≤ b.size ∧ 1 ≤ y ∧ y ≤ b.size := by
  simp [Board.isValid, and_assoc]

theorem setCell_WF {b : Board} (h : b.WF) (x y : Int) (c : Cell) : (b.setCell x y c).WF := by
  obtain ⟨h1, h2⟩ := h
  refine ⟨by simp [Board.setCell, h1], ?_⟩
  intro row hrow
  simp only [Board.setCell] at hrow
  by_cases hy : y.toNat < b.grid.length
  · rcases List.mem_or_eq_of_mem_set hrow with hm | he
    · exact h2 row hm
    · subst he
      rw [List.length_set, List.getD_eq_getElem _ _ hy]
      exact h2 _ (List.getElem_mem hy)
  · rw [List.set_eq_of_length_le (by omega)] at hrow
    exact h2 row hrow

theorem cellAt_setCell {b : Board} (h : b.WF) {x y : Int} (hv : b.isValid x y = true)
    (c : Cell) (u v : Int) :
    (b.setCell x y c).cellAt u v = if u = x ∧ v = y then c else b.cellAt u v := by
  obtain ⟨h1, h2⟩ := h
  rw [isValid_iff] at hv
  have hy : y.toNat < b.grid.length := by omega
  have hrow : (b.grid.getD y.toNat []).length = (b.size + 1).toNat := by
    rw [List.getD_eq_getElem _ _ hy]
    exact h2 _ (List.getElem_mem hy)
  have hx : x.toNat < (b.grid.getD y.toNat []).length := by omega
  simp only [Board.cellAt, Board.setCell, List.getD_eq_getElem?_getD, List.getElem?_set]
  by_cases hvy : v = y
  · subst hvy
    by_cases hux : u = x
    · subst hux
      rw [List.getD_eq_getElem _ _ hy] at hx
      simp [hy, List.getElem?_set, hx]
    · have : x.toNat ≠ u.toNat := by omega
      simp [hy, hux, this]
  · have : y.toNat ≠ v.toNat := by omega
    simp [hvy, this]

/-! ## Adjacency counts (`calculateAdjacentMines`) -/

theorem sameButCounts_refl {b : Board} (h : b.WF) : b.SameButCounts b :=
  ⟨rfl, rfl, rfl, h, fun _ _ => rfl, fun _ _ => rfl⟩

theorem sameButCounts_trans {b b1 b2 : Board} (h1 : b.SameButCounts b1)
    (h2 : b1.SameButCounts b2) : b.SameButCounts b2 :=
  ⟨h2.size_eq.trans h1.size_eq, h2.numMines_eq.trans h1.numMines_eq,
    h2.firstMove_eq.trans h1.firstMove_eq, h2.wf,
    fun u v => (h2.isMine_eq u v).trans (h1.isMine_eq u v),
    fun u v => (h2.isRevealed_eq u v).trans (h1.isRevealed_eq u v)⟩

theorem offsets_eq :
    offsets = [(-1, -1), (0, -1), (1, -1), (-1, 0), (1, 0), (-1, 1), (0, 1), (1, 1)] := by
  decide

theorem foldl_count_eq {α : Type} (p : α → Bool) (l : List α) (c : Int) :
    l.foldl (fun count a => if p a then count + 1 else count) c = c + (l.filter p).length := by
  induction l generalizing c with
  | nil => simp
  | cons a t ih =>
    simp only [List.foldl_cons, List.filter_cons]
    rw [ih]
    by_cases h : p a = true
    · simp [h]; ring
    · simp [h]

theorem countAround_eq_card (b : Board) (x y : Int) :
    b.countAround x y = ((b.minedNeighbours x y).card : Int) := by
  have hfold := foldl_count_eq
    (fun p : Int × Int => b.isValid (x + p.1) (y + p.2) && (b.cellAt (x + p.1) (y + p.2)).hasMine)
    offsets 0
  unfold Board.countAround
  rw [hfold, zero_add]
  congr 1
  have hnd : (offsets.filter (fun p : Int × Int =>
      b.isValid (x + p.1) (y + p.2) && (b.cellAt (x + p.1) (y + p.2)).hasMine)).Nodup :=
    List.Nodup.filter _ (by rw [offsets_eq]; decide)
  rw [← List.toFinset_card_of_nodup hnd]
  congr 1
  ext d
  simp only [List.mem_toFinset, List.mem_filter, Board.minedNeighbours, Finset.mem_filter,
    Bool.and_eq_true, isValid_iff, Cell.hasMine]
  have hoff : d ∈ offsets ↔
      d ∈ ((({-1, 0, 1} : Finset Int) ×ˢ ({-1, 0, 1} : Finset Int)).filter
        (fun d => ¬ (d.1 = 0 ∧ d.2 = 0))) := by
    rw [offsets_eq]
    obtain ⟨d1, d2⟩ := d
    simp only [Finset.mem_filter, Finset.mem_product, Finset.mem_insert, Finset.mem_singleton,
      List.mem_cons, Prod.mk.injEq, List.mem_singleton, List.mem_nil_iff, or_false]
    constructor
    · rintro (h | h | h | h | h | h | h | h) <;> obtain ⟨rfl, rfl⟩ := h <;> decide
    · rintro ⟨⟨h1 | h1 | h1, h2 | h2 | h2⟩, h3⟩ <;> subst h1 <;> subst h2 <;> simp at h3 ⊢
  rw [hoff]
  simp only [Finset.mem_filter]
  tauto

theorem mem_loopRange (n x : Int) : x ∈ loopRange n ↔ 1 ≤ x ∧ x ≤ n := by
  simp only [loopRange, List.mem_map, List.mem_range]
  constructor
  · rintro ⟨i, hi, rfl⟩
    have := (Int.lt_toNat).1 hi
    simp only [Int.ofNat_eq_coe]
    omega
  · rintro ⟨h1, h2⟩
    refine ⟨(x - 1).toNat, (Int.lt_toNat).2 ?_, ?_⟩
    · rw [Int.toNat_of_nonneg (by omega)]; omega
    · simp only [Int.ofNat_eq_coe]; rw [Int.toNat_of_nonneg (by omega)]; omega

theorem minedNeighbours_congr {b b1 : Board} (h : b.SameButCounts b1) (x y : Int) :
    b1.minedNeighbours x y = b.minedNeighbours x y := by
  unfold Board.minedNeighbours
  simp only [h.size_eq, h.isMine_eq]

theorem countAround_congr {b b1 : Board} (h : b.SameButCounts b1) (x y : Int) :
    b1.countAround x y = b.countAround x y := by
  rw [countAround_eq_card, countAround_eq_card, minedNeighbours_congr h]

theorem calcCell_same {b : Board} (h : b.WF) {x y : Int} (hv : b.isValid x y = true) :
    b.SameButCounts (b.calcCell x y) := by
  unfold Board.calcCell
  split
  · refine ⟨rfl, rfl, rfl, setCell_WF h _ _ _, ?_, ?_⟩ <;> intro u v <;>
      rw [cellAt_setCell h hv] <;> split
    · rename_i huv; rw [huv.1, huv.2]; rfl
    · rfl
    · rename_i huv; rw [huv.1, huv.2]; rfl
    · rfl
  · exact sameButCounts_refl h

theorem calcCell_count {b : Board} (h : b.WF) {x y : Int} (hv : b.isValid x y = true)
    (u v : Int) :
    ((b.calcCell x y).cellAt u v).adjacentMines =
      if u = x ∧ v = y ∧ (b.cellAt x y).isMine = false then b.countAround x y
      else (b.cellAt u v).adjacentMines := by
  unfold Board.calcCell
  by_cases hm : (b.cellAt x y).isMine = true
  · simp [Cell.hasMine, hm]
  · simp only [Bool.not_eq_true] at hm
    simp only [Cell.hasMine, hm, Bool.not_false, if_true, and_true]
    rw [cellAt_setCell h hv]
    split <;> simp [Cell.setAdjacentMines]

theorem calcRow_spec (y : Int) (xs : List Int) (b0 : Board) :
    ∀ b : Board, b0.SameButCounts b → (∀ x ∈ xs, b0.isValid x y = true) →
      b0.SameButCounts (xs.foldl (fun b2 x => b2.calcCell x y) b) ∧
      ∀ u v, ((xs.foldl (fun b2 x => b2.calcCell x y) b).cellAt u v).adjacentMines =
        if v = y ∧ u ∈ xs ∧ (b0.cellAt u v).isMine = false then b0.countAround u v
        else (b.cellAt u v).adjacentMines := by
  induction xs with
  | nil => intro b hb _; exact ⟨hb, fun u v => by simp⟩
  | cons x t ih =>
    intro b hb hval
    have hvx : b.isValid x y = true := by
      have := hval x (List.mem_cons_self _ _)
      rw [isValid_iff] at this ⊢; rw [hb.size_eq]; exact this
    have hs := calcCell_same hb.wf hvx
    obtain ⟨ih1, ih2⟩ := ih (b.calcCell x y) (sameButCounts_trans hb hs)
      (fun x' hx' => hval x' (List.mem_cons_of_mem _ hx'))
    refine ⟨ih1, fun u v => ?_⟩
    simp only [List.foldl_cons]
    rw [ih2, calcCell_count hb.wf hvx, countAround_congr hb, hb.isMine_eq]
    by_cases h1 : v = y <;> by_cases h2 : u = x <;> by_cases h3 : u ∈ t <;>
      by_cases h4 : (b0.cellAt u v).isMine = false <;>
      simp_all

theorem calcGrid_spec (xs ys : List Int) (b0 : Board) :
    ∀ b : Board, b0.SameButCounts b → (∀ x ∈ xs, ∀ y ∈ ys, b0.isValid x y = true) →
      b0.SameButCounts
        (ys.foldl (fun b1 y => xs.foldl (fun b2 x => b2.calcCell x y) b1) b) ∧
      ∀ u v,
        ((ys.foldl (fun b1 y => xs.foldl (fun b2 x => b2.calcCell x y) b1) b).cellAt
            u v).adjacentMines =
        if v ∈ ys ∧ u ∈ xs ∧ (b0.cellAt u v).isMine = false then b0.countAround u v
        else (b.cellAt u v).adjacentMines := by
  induction ys with
  | nil => intro b hb _; exact ⟨hb, fun u v => by simp⟩
  | cons y t ih =>
    intro b hb hval
    obtain ⟨r1, r2⟩ := calcRow_spec y xs b0 b hb
      (fun x hx => hval x hx y (List.mem_cons_self _ _))
    obtain ⟨ih1, ih2⟩ := ih _ r1 (fun x hx y' hy' => hval x hx y' (List.mem_cons_of_mem _ hy'))
    refine ⟨ih1, fun u v => ?_⟩
    simp only [List.foldl_cons]
    rw [ih2, r2]
    by_cases h1 : v = y <;> by_cases h2 : v ∈ t <;> by_cases h3 : u ∈ xs <;>
      by_cases h4 : (b0.cellAt u v).isMine = false <;>
      simp_all

theorem calculateAdjacentMines_same {b : Board} (h : b.WF) :
    b.SameButCounts b.calculateAdjacentMines :=
  (calcGrid_spec (loopRange b.size) (loopRange b.size) b b (sameButCounts_refl h)
    (fun x hx y hy => by
      rw [mem_loopRange] at hx hy; rw [isValid_iff]; omega)).1

theorem calculateAdjacentMines_count {b : Board} (h : b.WF) (u v : Int) :
    (b.calculateAdjacentMines.cellAt u v).adjacentMines =
      if b.isValid u v = true ∧ (b.cellAt u v).isMine = false then b.countAround u v
      else (b.cellAt u v).adjacentMines := by
  have := (calcGrid_spec (loopRange b.size) (loopRange b.size) b b (sameButCounts_refl h)
    (fun x hx y hy => by
      rw [mem_loopRange] at hx hy; rw [isValid_iff]; omega)).2 u v
  unfold Board.calculateAdjacentMines
  rw [this]
  simp only [mem_loopRange, isValid_iff]
  refine if_congr ?_ rfl rfl
  tauto

/-- C2. After `calculateAdjacentMines`, the mines are where they were and every in-grid
cell without a mine holds the number of displacements `(dx, dy)`, `dx, dy` in `{-1, 0, 1}`
not both zero, whose target `(x + dx, y + dy)` lies in the grid and has a mine. -/
theorem calculateAdjacentMines_correct (b : Board) (hwf : b.WF) (x y : Int)
    (hv : b.calculateAdjacentMines.isValid x y = true)
    (hm : (b.calculateAdjacentMines.cellAt x y).hasMine = false) :
    (b.calculateAdjacentMines.cellAt x y).getAdjacentMines
      = ((b.calculateAdjacentMines.minedNeighbours x y).card : Int) := by
  have hs := calculateAdjacentMines_same hwf
  have hv0 : b.isValid x y = true := by
    rw [isValid_iff] at hv ⊢; rw [hs.size_eq] at hv; exact hv
  have hm0 : (b.cellAt x y).isMine = false := by
    rw [← hs.isMine_eq]; exact hm
  unfold Cell.getAdjacentMines
  rw [calculateAdjacentMines_count hwf, if_pos ⟨hv0, hm0⟩, countAround_eq_card,
    minedNeighbours_congr hs]

set_option maxRecDepth 100000 in
theorem calculateAdjacentMines_correct_witness :
    (smallBoard.cellAt 2 2).getAdjacentMines = 2 ∧
      ((Board.calculateAdjacentMines
          { grid := smallBoard.grid, size := 3, numMines := 2, firstMove := false }).cellAt
        2 2).getAdjacentMines
      = (((Board.calculateAdjacentMines
          { grid := smallBoard.grid, size := 3, numMines := 2, firstMove := false
            }).minedNeighbours 2 2).card : Int) :=
  ⟨by decide,
    calculateAdjacentMines_correct
      { grid := smallBoard.grid, size := 3, numMines := 2, firstMove := false } (by decide)
      2 2 (by decide) (by decide)⟩

/-! ## Mine placement (`placeMines`) -/

theorem sameButMines_refl {b : Board} (h : b.WF) : b.SameButMines b :=
  ⟨rfl, rfl, rfl, h, fun _ _ => rfl, fun _ _ => rfl⟩

theorem sameButMines_trans {b b1 b2 : Board} (h1 : b.SameButMines b1)
    (h2 : b1.SameButMines b2) : b.SameButMines b2 :=
  ⟨h2.size_eq.trans h1.size_eq, h2.numMines_eq.trans h1.numMines_eq,
    h2.firstMove_eq.trans h1.firstMove_eq, h2.wf,
    fun u v => (h2.isRevealed_eq u v).trans (h1.isRevealed_eq u v),
    fun u v => (h2.adjacentMines_eq u v).trans (h1.adjacentMines_eq u v)⟩

theorem mem_cells (b : Board) (p : Int × Int) :
    p ∈ b.cells ↔ b.isValid p.1 p.2 = true := by
  simp only [Board.cells, Finset.mem_product, Finset.mem_Icc, isValid_iff]
  tauto

theorem mem_mineCells (b : Board) (p : Int × Int) :
    p ∈ b.mineCells ↔ b.isValid p.1 p.2 = true ∧ (b.cellAt p.1 p.2).isMine = true := by
  simp only [Board.mineCells, Finset.mem_filter, mem_cells]

theorem mineCells_congr {b b1 : Board} (hs : b1.size = b.size)
    (hm : ∀ u v, (b1.cellAt u v).isMine = (b.cellAt u v).isMine) :
    b1.mineCells = b.mineCells := by
  ext p
  simp only [mem_mineCells, isValid_iff, hs, hm]

theorem setMine_same {b : Board} (h : b.WF) {x y : Int} (hv : b.isValid x y = true) :
    b.SameButMines (b.setCell x y ((b.cellAt x y).setMine true)) := by
  refine ⟨rfl, rfl, rfl, setCell_WF h _ _ _, ?_, ?_⟩ <;> intro u v <;>
    rw [cellAt_setCell h hv] <;> split
  · rename_i huv; rw [huv.1, huv.2]; rfl
  · rfl
  · rename_i huv; rw [huv.1, huv.2]; rfl
  · rfl

theorem setMine_mineCells {b : Board} (h : b.WF) {x y : Int} (hv : b.isValid x y = true) :
    (b.setCell x y ((b.cellAt x y).setMine true)).mineCells = insert (x, y) b.mineCells := by
  ext p
  obtain ⟨u, v⟩ := p
  simp only [mem_mineCells, Finset.mem_insert, Prod.mk.injEq]
  rw [cellAt_setCell h hv]
  have hval : (b.setCell x y ((b.cellAt x y).setMine true)).isValid u v = b.isValid u v := rfl
  rw [hval]
  by_cases huv : u = x ∧ v = y
  · obtain ⟨rfl, rfl⟩ := huv
    simp [Cell.setMine, hv]
  · simp only [if_neg huv]
    tauto

theorem placeLoop_spec (fx fy : Int) (samples : List (Int × Int)) :
    ∀ (b : Board) (m : Int) (b1 : Board), b.WF → b.isValid fx fy = true →
      (∀ p ∈ samples, b.isValid p.1 p.2 = true) →
      (b.cellAt fx fy).isMine = false →
      Board.placeLoop fx fy samples b m = some b1 →
      b.SameButMines b1 ∧ (b1.cellAt fx fy).isMine = false ∧
        (b1.mineCells.card : Int) = b.mineCells.card + (max m b.numMines - m) := by
  induction samples with
  | nil =>
    intro b m b1 hwf _ _ hf h
    simp only [Board.placeLoop] at h
    split at h
    · exact absurd h (by simp)
    · obtain rfl := Option.some.inj h
      refine ⟨sameButMines_refl hwf, hf, ?_⟩
      rw [max_eq_left (by omega)]; omega
  | cons p rest ih =>
    intro b m b1 hwf hfv hs hf h
    obtain ⟨x, y⟩ := p
    simp only [Board.placeLoop] at h
    split at h
    · rename_i hlt
      have hxy : b.isValid x y = true := hs (x, y) (List.mem_cons_self _ _)
      have hrest : ∀ p ∈ rest, b.isValid p.1 p.2 = true :=
        fun p hp => hs p (List.mem_cons_of_mem _ hp)
      split at h
      · rename_i hcond
        simp only [Bool.and_eq_true, Bool.not_eq_true', Bool.or_eq_true, bne_iff_ne, ne_eq,
          Cell.hasMine] at hcond
        obtain ⟨hnm, hne⟩ := hcond
        have hsame := setMine_same hwf hxy
        have hf1 : ((b.setCell x y ((b.cellAt x y).setMine true)).cellAt fx fy).isMine
            = false := by
          rw [cellAt_setCell hwf hxy, if_neg (by tauto)]; exact hf
        obtain ⟨r1, r2, r3⟩ := ih _ (m + 1) b1 hsame.wf hfv hrest hf1 h
        refine ⟨sameButMines_trans hsame r1, r2, ?_⟩
        rw [r3, setMine_mineCells hwf hxy, Finset.card_insert_of_not_mem]
        · have e : (b.setCell x y ((b.cellAt x y).setMine true)).numMines = b.numMines := rfl
          rw [e, max_eq_right (by omega), max_eq_right (by omega)]
          push_cast; ring
        · rw [mem_mineCells]; simp [hnm]
      · exact ih b m b1 hwf hfv hrest hf h
    · rename_i hge
      obtain rfl := Option.some.inj h
      refine ⟨sameButMines_refl hwf, hf, ?_⟩
      rw [max_eq_left (by omega)]; omega

theorem create_eq {n : Int} {b : Board} (h : Board.create n = Except.ok b) :
    9 ≤ n ∧ b = { grid := List.replicate (n + 1).toNat (List.replicate (n + 1).toNat Cell.create)
                  size := n
                  numMines := Int.tdiv (wrapInt (n * n)) 6
                  firstMove := true } := by
  unfold Board.create at h
  split at h
  · exact absurd h (by simp)
  · exact ⟨by omega, (Except.ok.inj h).symm⟩

theorem create_WF {n : Int} {b : Board} (h : Board.create n = Except.ok b) : b.WF := by
  obtain ⟨_, rfl⟩ := create_eq h
  refine ⟨by simp, ?_⟩
  intro row hrow
  rw [List.eq_of_mem_replicate hrow]
  simp

theorem create_cellAt {n : Int} {b : Board} (h : Board.create n = Except.ok b) (u v : Int) :
    b.cellAt u v = Cell.create := by
  obtain ⟨_, rfl⟩ := create_eq h
  simp only [Board.cellAt, List.getD_eq_getElem?_getD, List.getElem?_replicate]
  split
  · simp only [Option.getD_some, List.getElem?_replicate]
    split <;> rfl
  · rfl

theorem create_mineCells {n : Int} {b : Board} (h : Board.create n = Except.ok b) :
    b.mineCells = ∅ := by
  ext p
  simp [mem_mineCells, create_cellAt h, Cell.create]

theorem create_numMines {n : Int} {b : Board} (h : Board.create n = Except.ok b) :
    b.numMines = Int.tdiv (wrapInt (n * n)) 6 := by
  obtain ⟨_, rfl⟩ := create_eq h
  rfl

theorem create_size {n : Int} {b : Board} (h : Board.create n = Except.ok b) :
    b.size = n := by
  obtain ⟨_, rfl⟩ := create_eq h
  rfl

theorem numMines_small {n : Int} (h9 : 9 ≤ n) (hmax : n ≤ 46340) :
    Int.tdiv (wrapInt (n * n)) 6 = n * n / 6 := by
  have h1 : 0 ≤ n * n := by positivity
  have h2 : n * n ≤ 46340 * 46340 := by nlinarith
  have hw : wrapInt (n * n) = n * n := by
    unfold wrapInt; omega
  rw [hw, Int.tdiv_eq_ediv h1 (by norm_num)]

/-- C1 (as stated, refuted). For `N = 46341` the product `N * N` does not fit a 32-bit
`int`: the constructor stores a negative `numMines`, the placement loop exits at once, and
the board has no mine at all instead of `floor(N * N / 6)` of them. -/
theorem placeMines_count_overflow :
    ∃ b b1 : Board, Board.create 46341 = Except.ok b ∧ b.isValid 5 5 = true ∧
      b.placeMines 5 5 [] = some b1 ∧ b1.mineCells.card = 0 ∧
      (b1.mineCells.card : Int) ≠ 46341 * 46341 / 6 := by
  obtain ⟨b, hc⟩ : ∃ b, Board.create 46341 = Except.ok b := by
    unfold Board.create
    rw [if_neg (by decide)]
    exact ⟨_, rfl⟩
  have hneg : ¬ (0 < b.numMines) := by
    rw [create_numMines hc]; decide
  have hsame := calculateAdjacentMines_same (create_WF hc)
  refine ⟨b, b.calculateAdjacentMines, hc, ?_, ?_, ?_⟩
  · rw [isValid_iff, create_size hc]; decide
  · unfold Board.placeMines Board.placeLoop
    rw [if_neg hneg]
    rfl
  · rw [mineCells_congr hsame.size_eq hsame.isMine_eq, create_mineCells hc]
    exact ⟨rfl, by decide⟩

/-- C1 (amended). For every size `N ≥ 9` (the sizes for which `Board(N)` is constructed),
every in-bounds first-click cell and every sequence of in-bounds samples on which
`placeMines` finishes from the freshly constructed board, the first-click cell has no mine
afterwards; and whenever `N ≤ 46340`, so that `N * N` fits a 32-bit `int`, exactly
`floor(N * N / 6)` cells of the grid have a mine. -/
theorem placeMines_count (n fx fy : Int) (samples : List (Int × Int)) (b b1 : Board)
    (hb : Board.create n = Except.ok b)
    (hf : b.isValid fx fy = true) (hs : ∀ p ∈ samples, b.isValid p.1 p.2 = true)
    (h : b.placeMines fx fy samples = some b1) :
    (b1.cellAt fx fy).hasMine = false ∧
      (n ≤ 46340 → (b1.mineCells.card : Int) = n * n / 6) := by
  have hn : 9 ≤ n := (create_eq hb).1
  unfold Board.placeMines at h
  cases hp : Board.placeLoop fx fy samples b 0 with
  | none => rw [hp] at h; exact absurd h (by simp)
  | some b2 =>
    rw [hp] at h
    obtain rfl := Option.some.inj h
    have hfresh : (b.cellAt fx fy).isMine = false := by rw [create_cellAt hb]; rfl
    obtain ⟨r1, r2, r3⟩ := placeLoop_spec fx fy samples b 0 b2 (create_WF hb) hf hs hfresh hp
    have hc := calculateAdjacentMines_same r1.wf
    have hm := mineCells_congr hc.size_eq hc.isMine_eq
    refine ⟨?_, ?_⟩
    · show (b2.calculateAdjacentMines.cellAt fx fy).isMine = false
      rw [hc.isMine_eq]; exact r2
    · intro hmax
      have hnum : b.numMines = n * n / 6 := by
        rw [create_numMines hb, numMines_small hn hmax]
      have hpos : 0 ≤ n * n / 6 := Int.ediv_nonneg (by positivity) (by norm_num)
      rw [hm, r3, create_mineCells hb, hnum, max_eq_right hpos]; simp

set_option maxRecDepth 100000 in
theorem placeMines_count_witness :
    ∃ b b1 : Board, Board.create 9 = Except.ok b ∧ b.placeMines 5 5 demoSamples = some b1 ∧
      (b1.cellAt 5 5).hasMine = false ∧ (b1.mineCells.card : Int) = 13 :=
  have h := placeMines_count 9 5 5 demoSamples demoStart
    ((demoStart.placeMines 5 5 demoSamples).getD demoStart) rfl (by decide) (by decide)
    (by decide)
  ⟨_, _, rfl, by decide, h.1, h.2 (by decide)⟩

/-! ## Moves, win check and construction -/

theorem all_loopRange (n : Int) (p : Int → Bool) :
    (loopRange n).all p = true ↔ ∀ x, 1 ≤ x → x ≤ n → p x = true := by
  rw [List.all_eq_true]
  constructor
  · intro h x h1 h2; exact h x ((mem_loopRange n x).2 ⟨h1, h2⟩)
  · intro h x hx; rw [mem_loopRange] at hx; exact h x hx.1 hx.2

/-- C5. `checkWin` returns true exactly when every cell of `[1,size] x [1,size]` without a
mine is revealed; it is a pure function of the board, so the state is left as it was. -/
theorem checkWin_iff (b : Board) :
    b.checkWin = true ↔
      ∀ x y, b.isValid x y = true → (b.cellAt x y).hasMine = false →
        (b.cellAt x y).isOpen = true := by
  unfold Board.checkWin
  rw [all_loopRange]
  simp only [all_loopRange, isValid_iff]
  constructor
  · intro h x y hv hm
    have := h y hv.2.2.1 hv.2.2.2 x hv.1 hv.2.1
    simpa [hm] using this
  · intro h y hy1 hy2 x hx1 hx2
    have := h x y ⟨hx1, hx2, hy1, hy2⟩
    cases hm : (b.cellAt x y).hasMine
    · simp [this hm]
    · simp

/-- C6. A move outside `[1,size] x [1,size]` returns false and leaves the whole board
state (grid, mine count, first-move flag) as it was, whatever the random samples. -/
theorem makeMove_out_of_bounds (b : Board) (x y : Int) (samples : List (Int × Int))
    (h : b.isValid x y = false) : b.makeMove x y samples = some (false, b) := by
  unfold Board.makeMove
  simp [h]

theorem makeMove_out_of_bounds_witness :
    smallBoard.makeMove 0 0 [] = some (false, smallBoard) :=
  makeMove_out_of_bounds smallBoard 0 0 [] (by decide)

/-- C7. Once mines are placed, a move on an in-bounds mine cell returns false and leaves
the whole board state as it was; in particular the mine cell is not revealed. -/
theorem makeMove_on_mine (b : Board) (x y : Int) (samples : List (Int × Int))
    (hfirst : b.firstMove = false) (hv : b.isValid x y = true)
    (hm : (b.cellAt x y).hasMine = true) : b.makeMove x y samples = some (false, b) := by
  unfold Board.makeMove
  simp [hv, hfirst, hm]

theorem makeMove_on_mine_witness :
    smallBoard.makeMove 3 2 [] = some (false, smallBoard) ∧
      (smallBoard.cellAt 3 2).isOpen = false :=
  ⟨makeMove_on_mine smallBoard 3 2 [] (by decide) (by decide) (by decide), by decide⟩

/-- C10. Constructing `Board(n)` fails, with the `invalid_argument` message, exactly when
`n < 9`; for every `n ≥ 9` it succeeds with a board of size `n`. -/
theorem create_fails_iff (n : Int) :
    (Board.create n = Except.error "Board size must be at least 9" ↔ n < 9) ∧
      ((∃ b, Board.create n = Except.ok b ∧ b.size = n) ↔ 9 ≤ n) := by
  unfold Board.create
  by_cases h : n < 9
  · simp [h]
  · simp [h]; omega

/-! ## Flood fill (`revealEmpty`) -/

theorem loopRange_nodup (n : Int) : (loopRange n).Nodup := by
  unfold loopRange
  refine List.Nodup.map ?_ (List.nodup_range _)
  intro i j h
  simp only [Int.ofNat_eq_coe] at h
  omega

theorem loopRange_toFinset (n : Int) : (loopRange n).toFinset = Finset.Icc 1 n := by
  ext x
  simp [mem_loopRange]

theorem countP_eq_card (l : List Int) (hl : l.Nodup) (p : Int → Bool) :
    l.countP p = (l.toFinset.filter (fun x => p x = true)).card := by
  rw [List.countP_eq_length_filter, ← List.toFinset_card_of_nodup (hl.filter _)]
  congr 1
  ext x
  simp

theorem unrevealedCount_eq_card (b : Board) :
    b.unrevealedCount = b.unrevealedCells.card := by
  unfold Board.unrevealedCount Board.unrevealedCells Board.cells
  rw [← List.sum_toFinset _ (loopRange_nodup _), loopRange_toFinset, Finset.card_filter,
    Finset.sum_product_right]
  refine Finset.sum_congr rfl (fun y _ => ?_)
  rw [countP_eq_card _ (loopRange_nodup _), loopRange_toFinset, Finset.card_filter]
  refine Finset.sum_congr rfl (fun x _ => ?_)
  simp [Cell.isOpen]

theorem mem_unrevealedCells (b : Board) (p : Int × Int) :
    p ∈ b.unrevealedCells ↔
      b.isValid p.1 p.2 = true ∧ (b.cellAt p.1 p.2).isRevealed = false := by
  simp only [Board.unrevealedCells, Finset.mem_filter, mem_cells]

theorem adjacent_iff (x y u v : Int) :
    Adjacent x y u v ↔ ∃ p ∈ offsets, u = x + p.1 ∧ v = y + p.2 := by
  rw [offsets_eq]
  unfold Adjacent
  constructor
  · rintro ⟨h1, h2, h3⟩
    refine ⟨(u - x, v - y), ?_, by simp, by simp⟩
    have hx : u - x = -1 ∨ u - x = 0 ∨ u - x = 1 := by omega
    have hy : v - y = -1 ∨ v - y = 0 ∨ v - y = 1 := by omega
    have h0 : ¬ (u - x = 0 ∧ v - y = 0) := by omega
    rcases hx with hx | hx | hx <;> rcases hy with hy | hy | hy <;>
      simp [hx, hy] at h0 ⊢
  · rintro ⟨p, hp, rfl, rfl⟩
    simp only [List.mem_cons, List.mem_singleton, List.mem_nil_iff, or_false] at hp
    rcases hp with h | h | h | h | h | h | h | h <;> subst h <;> simp

theorem revealsOnly_refl {b : Board} (h : b.WF) : b.RevealsOnly b :=
  ⟨rfl, rfl, rfl, h, fun _ _ => rfl, fun _ _ => rfl, fun _ _ h => h⟩

theorem revealsOnly_trans {b b1 b2 : Board} (h1 : b.RevealsOnly b1) (h2 : b1.RevealsOnly b2) :
    b.RevealsOnly b2 :=
  ⟨h2.size_eq.trans h1.size_eq, h2.numMines_eq.trans h1.numMines_eq,
    h2.firstMove_eq.trans h1.firstMove_eq, h2.wf,
    fun u v => (h2.isMine_eq u v).trans (h1.isMine_eq u v),
    fun u v => (h2.adjacentMines_eq u v).trans (h1.adjacentMines_eq u v),
    fun u v h => h2.mono u v (h1.mono u v h)⟩

theorem revealsOnly_isValid {b b1 : Board} (h : b.RevealsOnly b1) (u v : Int) :
    b1.isValid u v = b.isValid u v := by
  unfold Board.isValid; rw [h.size_eq]

theorem revealsOnly_count_le {b b1 : Board} (h : b.RevealsOnly b1) :
    b1.unrevealedCount ≤ b.unrevealedCount := by
  rw [unrevealedCount_eq_card, unrevealedCount_eq_card]
  apply Finset.card_le_card
  intro p hp
  rw [mem_unrevealedCells] at hp ⊢
  rw [revealsOnly_isValid h] at hp
  refine ⟨hp.1, ?_⟩
  cases hr : (b.cellAt p.1 p.2).isRevealed
  · rfl
  · have := h.mono _ _ hr
    rw [hp.2] at this; exact absurd this (by simp)

theorem reveal_revealsOnly {b : Board} (h : b.WF) {x y : Int} (hv : b.isValid x y = true) :
    b.RevealsOnly (b.setCell x y (b.cellAt x y).reveal) := by
  refine ⟨rfl, rfl, rfl, setCell_WF h _ _ _, ?_, ?_, ?_⟩ <;> intro u v <;>
    rw [cellAt_setCell h hv] <;> split
  · rename_i huv; rw [huv.1, huv.2]; rfl
  · rfl
  · rename_i huv; rw [huv.1, huv.2]; rfl
  · rfl
  · intro _; rfl
  · exact id

theorem reveal_isRevealed {b : Board} (h : b.WF) {x y : Int} (hv : b.isValid x y = true)
    (u v : Int) :
    ((b.setCell x y (b.cellAt x y).reveal).cellAt u v).isRevealed =
      if u = x ∧ v = y then true else (b.cellAt u v).isRevealed := by
  rw [cellAt_setCell h hv]
  split <;> rfl

theorem reveal_count_lt {b : Board} (h : b.WF) {x y : Int} (hv : b.isValid x y = true)
    (hr : (b.cellAt x y).isRevealed = false) :
    (b.setCell x y (b.cellAt x y).reveal).unrevealedCount < b.unrevealedCount := by
  rw [unrevealedCount_eq_card, unrevealedCount_eq_card]
  apply Finset.card_lt_card
  rw [Finset.ssubset_iff_of_subset]
  · refine ⟨(x, y), (mem_unrevealedCells _ _).2 ⟨hv, hr⟩, ?_⟩
    rw [mem_unrevealedCells, reveal_isRevealed h hv]
    simp
  · intro p hp
    rw [mem_unrevealedCells] at hp ⊢
    rw [reveal_isRevealed h hv] at hp
    refine ⟨hp.1, ?_⟩
    by_cases hc : p.1 = x ∧ p.2 = y
    · rw [if_pos hc] at hp; exact absurd hp.2 (by simp)
    · rw [if_neg hc] at hp; exact hp.2

theorem floodPath_start {b : Board} {x y u v : Int} (h : b.FloodPath x y u v) :
    b.isValid x y = true ∧ (b.cellAt x y).isRevealed = false := by
  cases h with
  | stop _ _ h1 h2 => exact ⟨h1, h2⟩
  | step _ _ _ _ _ _ h1 h2 _ _ _ => exact ⟨h1, h2⟩

theorem floodPath_end {b : Board} {x y u v : Int} (h : b.FloodPath x y u v) :
    b.isValid u v = true ∧ (b.cellAt u v).isRevealed = false := by
  induction h with
  | stop _ _ h1 h2 => exact ⟨h1, h2⟩
  | step _ _ _ _ _ _ _ _ _ _ _ ih => exact ih

theorem floodPath_of_revealsOnly {b b1 : Board} (h : b.RevealsOnly b1) {x y u v : Int}
    (hp : b1.FloodPath x y u v) : b.FloodPath x y u v := by
  have hunrev : ∀ s t, (b1.cellAt s t).isRevealed = false → (b.cellAt s t).isRevealed = false := by
    intro s t hst
    cases hr : (b.cellAt s t).isRevealed
    · rfl
    · have := h.mono _ _ hr
      rw [hst] at this; exact absurd this (by simp)
  induction hp with
  | stop x y h1 h2 =>
    exact Board.FloodPath.stop x y (by rw [← revealsOnly_isValid h]; exact h1) (hunrev _ _ h2)
  | step x y x1 y1 u v h1 h2 h3 h4 _ ih =>
    exact Board.FloodPath.step x y x1 y1 u v (by rw [← revealsOnly_isValid h]; exact h1)
      (hunrev _ _ h2) (by rw [← h.adjacentMines_eq]; exact h3) h4 ih

theorem revealAround_spec (f : Board → Int → Int → Option Board) (fuel : Nat)
    (hf : ∀ (b : Board) (x y : Int), b.WF → b.unrevealedCount < fuel →
      ∃ b1, f b x y = some b1 ∧ b.FloodSpec x y b1)
    (x y : Int) (l : List (Int × Int)) :
    ∀ b : Board, b.WF → b.unrevealedCount < fuel →
      ∃ b1, revealAround f x y l b = some b1 ∧ b.RevealsOnly b1 ∧
        (∀ p ∈ l, b.isValid (x + p.1) (y + p.2) = true →
          (b1.cellAt (x + p.1) (y + p.2)).isRevealed = true) ∧
        (∀ u v, (b1.cellAt u v).isRevealed = true → (b.cellAt u v).isRevealed = false →
          ∃ p ∈ l, b.FloodPath (x + p.1) (y + p.2) u v) ∧
        (∀ u v, (b1.cellAt u v).isRevealed = true → (b.cellAt u v).isRevealed = false →
          (b.cellAt u v).adjacentMines = 0 →
          ∀ s t, Adjacent u v s t → b.isValid s t = true →
            (b1.cellAt s t).isRevealed = true) := by
  induction l with
  | nil =>
    intro b hwf _
    refine ⟨b, rfl, revealsOnly_refl hwf, ?_, ?_, ?_⟩
    · intro p hp; exact absurd hp (List.not_mem_nil _)
    · intro u v h1 h2; rw [h1] at h2; exact absurd h2 (by simp)
    · intro u v h1 h2; rw [h1] at h2; exact absurd h2 (by simp)
  | cons p rest ih =>
    intro b hwf hfuel
    obtain ⟨b2, hb2, hspec⟩ := hf b (x + p.1) (y + p.2) hwf hfuel
    have hle := revealsOnly_count_le hspec.only
    obtain ⟨b1, hb1, honly, ha, hs, hc⟩ := ih b2 hspec.only.wf (by omega)
    refine ⟨b1, ?_, revealsOnly_trans hspec.only honly, ?_, ?_, ?_⟩
    · simp only [revealAround, hb2]; exact hb1
    · intro q hq hv
      rcases List.mem_cons.1 hq with rfl | hq
      · exact honly.mono _ _ (hspec.start hv)
      · exact ha q hq (by rw [revealsOnly_isValid hspec.only]; exact hv)
    · intro u v h1 h2
      cases h3 : (b2.cellAt u v).isRevealed
      · obtain ⟨q, hq, hpath⟩ := hs u v h1 h3
        exact ⟨q, List.mem_cons_of_mem _ hq, floodPath_of_revealsOnly hspec.only hpath⟩
      · exact ⟨p, List.mem_cons_self _ _, hspec.sound u v h3 h2⟩
    · intro u v h1 h2 h0 s t hadj hv
      cases h3 : (b2.cellAt u v).isRevealed
      · exact hc u v h1 h3 (by rw [hspec.only.adjacentMines_eq]; exact h0) s t hadj
          (by rw [revealsOnly_isValid hspec.only]; exact hv)
      · exact honly.mono _ _ (hspec.closed u v h3 h2 h0 s t hadj hv)

theorem revealEmptyAux_spec (fuel : Nat) :
    ∀ (b : Board) (x y : Int), b.WF → b.unrevealedCount < fuel →
      ∃ b1, b.revealEmptyAux fuel x y = some b1 ∧ b.FloodSpec x y b1 := by
  induction fuel with
  | zero => intro b x y _ h; exact absurd h (Nat.not_lt_zero _)
  | succ fuel ih =>
    intro b x y hwf hfuel
    unfold Board.revealEmptyAux
    by_cases hstop : (!b.isValid x y || (b.cellAt x y).isOpen) = true
    · rw [if_pos hstop]
      refine ⟨b, rfl, revealsOnly_refl hwf, ?_, ?_, ?_⟩
      · intro hv
        simpa [hv, Cell.isOpen] using hstop
      · intro u v h1 h2; rw [h1] at h2; exact absurd h2 (by simp)
      · intro u v h1 h2; rw [h1] at h2; exact absurd h2 (by simp)
    · rw [if_neg hstop]
      simp only [Bool.or_eq_true, Bool.not_eq_true', not_or, Bool.not_eq_false,
        Bool.not_eq_true, Cell.isOpen] at hstop
      obtain ⟨hv, hr⟩ := hstop
      have honly := reveal_revealsOnly hwf hv
      have hrev := reveal_isRevealed hwf hv
      have hlt := reveal_count_lt hwf hv hr
      have hadj0 : ((b.setCell x y (b.cellAt x y).reveal).cellAt x y).getAdjacentMines
          = (b.cellAt x y).adjacentMines := honly.adjacentMines_eq x y
      simp only [hadj0]
      by_cases hz : (b.cellAt x y).adjacentMines = 0
      · rw [if_pos (by simp [hz])]
        obtain ⟨b1, hb1, ho, ha, hs, hc⟩ :=
          revealAround_spec (Board.revealEmptyAux fuel) fuel ih x y offsets
            (b.setCell x y (b.cellAt x y).reveal) honly.wf (by omega)
        refine ⟨b1, hb1, revealsOnly_trans honly ho, ?_, ?_, ?_⟩
        · intro _
          exact ho.mono _ _ (by rw [hrev]; simp)
        · intro u v h1 h2
          by_cases huv : u = x ∧ v = y
          · obtain ⟨rfl, rfl⟩ := huv
            exact Board.FloodPath.stop _ _ hv hr
          · obtain ⟨p, hp, hpath⟩ := hs u v h1 (by rw [hrev, if_neg huv]; exact h2)
            exact Board.FloodPath.step x y _ _ u v hv hr hz
              ((adjacent_iff _ _ _ _).2 ⟨p, hp, rfl, rfl⟩)
              (floodPath_of_revealsOnly honly hpath)
        · intro u v h1 h2 h0 s t hadj hvst
          by_cases huv : u = x ∧ v = y
          · obtain ⟨rfl, rfl⟩ := huv
            obtain ⟨p, hp, rfl, rfl⟩ := (adjacent_iff _ _ _ _).1 hadj
            exact ha p hp hvst
          · exact hc u v h1 (by rw [hrev, if_neg huv]; exact h2)
              (by rw [honly.adjacentMines_eq]; exact h0) s t hadj hvst
      · rw [if_neg (by simp [hz])]
        refine ⟨_, rfl, honly, ?_, ?_, ?_⟩
        · intro _; rw [hrev]; simp
        · intro u v h1 h2
          by_cases huv : u = x ∧ v = y
          · obtain ⟨rfl, rfl⟩ := huv
            exact Board.FloodPath.stop _ _ hv hr
          · rw [hrev, if_neg huv, h2] at h1; exact absurd h1 (by simp)
        · intro u v h1 h2 h0
          by_cases huv : u = x ∧ v = y
          · obtain ⟨rfl, rfl⟩ := huv
            exact absurd h0 hz
          · rw [hrev, if_neg huv, h2] at h1; exact absurd h1 (by simp)

theorem floodSpec_extend {b b1 : Board} {x y : Int} (h : b.FloodSpec x y b1)
    {x0 y0 u v : Int} (hp : b.FloodPath x0 y0 u v) :
    (b1.cellAt x0 y0).isRevealed = true → (b1.cellAt u v).isRevealed = true := by
  induction hp with
  | stop _ _ _ _ => exact id
  | step x0 y0 x1 y1 u v h1 h2 h3 h4 h5 ih =>
    intro hr
    exact ih (h.closed x0 y0 hr h2 h3 x1 y1 h4 (floodPath_start h5).1)

theorem floodSpec_complete {b b1 : Board} {x y : Int} (h : b.FloodSpec x y b1) {u v : Int}
    (hp : b.FloodPath x y u v) : (b1.cellAt u v).isRevealed = true :=
  floodSpec_extend h hp (h.start (floodPath_start hp).1)

theorem floodPath_snoc {b : Board} {x y u v s t : Int} (hp : b.FloodPath x y u v)
    (h0 : (b.cellAt u v).adjacentMines = 0) (hadj : Adjacent u v s t)
    (hv : b.isValid s t = true) (hr : (b.cellAt s t).isRevealed = false) :
    b.FloodPath x y s t := by
  induction hp with
  | stop x y h1 h2 =>
    exact Board.FloodPath.step x y s t s t h1 h2 h0 hadj (Board.FloodPath.stop s t hv hr)
  | step x y x1 y1 u v h1 h2 h3 h4 _ ih =>
    exact Board.FloodPath.step x y x1 y1 s t h1 h2 h3 h4 (ih h0 hadj)

theorem zeroRegion_zero {b : Board} {x y u v : Int} (h : b.ZeroRegion x y u v) :
    b.isValid u v = true ∧ (b.cellAt u v).adjacentMines = 0 := by
  cases h with
  | start h1 h2 => exact ⟨h1, h2⟩
  | grow _ _ _ _ _ _ h1 h2 => exact ⟨h1, h2⟩

theorem floodPath_of_zeroRegion {b : Board}
    (hall : ∀ u v, b.isValid u v = true → (b.cellAt u v).isRevealed = false)
    {x y u v : Int} (h : b.ZeroRegion x y u v) : b.FloodPath x y u v := by
  induction h with
  | start h1 _ => exact Board.FloodPath.stop x y h1 (hall _ _ h1)
  | grow u v s t hz hadj hv _ ih =>
    exact floodPath_snoc ih (zeroRegion_zero hz).2 hadj hv (hall _ _ hv)

theorem zeroRegion_of_floodPath {b : Board} {x y x0 y0 u v : Int}
    (hp : b.FloodPath x0 y0 u v) :
    (b.ZeroRegion x y x0 y0 ∨ (x0 = x ∧ y0 = y)) →
      (u = x ∧ v = y) ∨ b.ZeroRegion x y u v ∨
        ∃ s t, b.ZeroRegion x y s t ∧ Adjacent s t u v := by
  induction hp with
  | stop x0 y0 _ _ =>
    rintro (h | h)
    · exact Or.inr (Or.inl h)
    · exact Or.inl h
  | step x0 y0 x1 y1 u v h1 h2 h3 h4 h5 ih =>
    intro h
    have hz : b.ZeroRegion x y x0 y0 := by
      rcases h with h | ⟨rfl, rfl⟩
      · exact h
      · exact Board.ZeroRegion.start h1 h3
    by_cases h0 : (b.cellAt x1 y1).adjacentMines = 0
    · exact ih (Or.inl (Board.ZeroRegion.grow x0 y0 x1 y1 hz h4 (floodPath_start h5).1 h0))
    · cases h5 with
      | stop _ _ _ _ => exact Or.inr (Or.inr ⟨x0, y0, hz, h4⟩)
      | step _ _ _ _ _ _ _ _ h6 _ _ => exact absurd h6 h0

/-- C3. For a well-formed board and an in-bounds, unrevealed start cell, `revealEmpty`
returns; it changes only `isRevealed` flags; a cell is revealed afterwards iff it was revealed
before or is the end of a path from the start through in-grid, previously unrevealed cells,
each a neighbour of the previous one, all but the last with count 0. With nothing revealed
before, the revealed cells are the start, the connected zero-count region around it and the
in-grid neighbours of that region; when the start has a non-zero count, only it is added. -/
theorem revealEmpty_flood (b : Board) (x y : Int) (hwf : b.WF)
    (hv : b.isValid x y = true) (hr : (b.cellAt x y).isOpen = false) :
    ∃ b1, b.revealEmpty x y = some b1 ∧ b.RevealsOnly b1 ∧
      (∀ u v, (b1.cellAt u v).isOpen = true ↔
        (b.cellAt u v).isOpen = true ∨ b.FloodPath x y u v) ∧
      ((∀ u v, b.isValid u v = true → (b.cellAt u v).isOpen = false) →
        ∀ u v, b.isValid u v = true →
          ((b1.cellAt u v).isOpen = true ↔
            (u = x ∧ v = y) ∨ b.ZeroRegion x y u v ∨
              ∃ s t, b.ZeroRegion x y s t ∧ Adjacent s t u v)) ∧
      ((b.cellAt x y).getAdjacentMines ≠ 0 →
        ∀ u v, (b1.cellAt u v).isOpen = true ↔
          (b.cellAt u v).isOpen = true ∨ (u = x ∧ v = y)) := by
  obtain ⟨b1, hb1, hspec⟩ :=
    revealEmptyAux_spec (b.unrevealedCount + 1) b x y hwf (Nat.lt_succ_self _)
  have hiff : ∀ u v, (b1.cellAt u v).isOpen = true ↔
      (b.cellAt u v).isOpen = true ∨ b.FloodPath x y u v := by
    intro u v
    constructor
    · intro h
      cases hb : (b.cellAt u v).isOpen
      · exact Or.inr (hspec.sound u v h hb)
      · exact Or.inl rfl
    · rintro (h | h)
      · exact hspec.only.mono u v h
      · exact floodSpec_complete hspec h
  refine ⟨b1, hb1, hspec.only, hiff, ?_, ?_⟩
  · intro hall u v huv
    rw [hiff, hall u v huv]
    constructor
    · rintro (h | h)
      · exact absurd h (by simp)
      · exact zeroRegion_of_floodPath h (Or.inr ⟨rfl, rfl⟩)
    · rintro (⟨rfl, rfl⟩ | h | ⟨s, t, hz, hadj⟩)
      · exact Or.inr (Board.FloodPath.stop _ _ hv hr)
      · exact Or.inr (floodPath_of_zeroRegion hall h)
      · exact Or.inr (floodPath_snoc (floodPath_of_zeroRegion hall hz) (zeroRegion_zero hz).2
          hadj huv (hall u v huv))
  · intro hnz u v
    rw [hiff]
    constructor
    · rintro (h | h)
      · exact Or.inl h
      · cases h with
        | stop _ _ _ _ => exact Or.inr ⟨rfl, rfl⟩
        | step _ _ _ _ _ _ _ _ h0 _ _ => exact absurd h0 hnz
    · rintro (h | ⟨rfl, rfl⟩)
      · exact Or.inl h
      · exact Or.inr (Board.FloodPath.stop _ _ hv hr)

set_option maxRecDepth 100000 in
theorem revealEmpty_flood_witness :
    ∃ b1, smallBoard.revealEmpty 1 3 = some b1 ∧ smallBoard.RevealsOnly b1 ∧
      (∀ u v, (b1.cellAt u v).isOpen = true ↔
        (smallBoard.cellAt u v).isOpen = true ∨ smallBoard.FloodPath 1 3 u v) ∧
      ((∀ u v, smallBoard.isValid u v = true → (smallBoard.cellAt u v).isOpen = false) →
        ∀ u v, smallBoard.isValid u v = true →
          ((b1.cellAt u v).isOpen = true ↔
            (u = 1 ∧ v = 3) ∨ smallBoard.ZeroRegion 1 3 u v ∨
              ∃ s t, smallBoard.ZeroRegion 1 3 s t ∧ Adjacent s t u v)) ∧
      ((smallBoard.cellAt 1 3).getAdjacentMines ≠ 0 →
        ∀ u v, (b1.cellAt u v).isOpen = true ↔
          (smallBoard.cellAt u v).isOpen = true ∨ (u = 1 ∧ v = 3)) :=
  revealEmpty_flood smallBoard 1 3 (by decide) (by decide) (by decide)

/-! ## Moves (`makeMove`) and reachable states -/

theorem mined_neighbour_mem {b : Board} {x y s t : Int} (hadj : Adjacent x y s t)
    (hv : b.isValid s t = true) (hm : (b.cellAt s t).isMine = true) :
    (s - x, t - y) ∈ b.minedNeighbours x y := by
  obtain ⟨h1, h2, h3⟩ := hadj
  rw [isValid_iff] at hv
  have e1 : x + (s - x) = s := by omega
  have e2 : y + (t - y) = t := by omega
  simp only [Board.minedNeighbours, Finset.mem_filter, Finset.mem_product, Finset.mem_insert,
    Finset.mem_singleton, e1, e2, hm, and_true]
  refine ⟨⟨⟨by omega, by omega⟩, by omega⟩, hv.1, hv.2.1, hv.2.2.1, hv.2.2.2⟩

theorem floodPath_no_mine {b : Board} (hc : b.CountsCorrect) {x y u v : Int}
    (hp : b.FloodPath x y u v) :
    (b.cellAt x y).isMine = false → (b.cellAt u v).isMine = false := by
  induction hp with
  | stop _ _ _ _ => exact id
  | step x y x1 y1 u v h1 h2 h3 h4 h5 ih =>
    intro hm
    apply ih
    cases hm1 : (b.cellAt x1 y1).isMine
    · rfl
    · exfalso
      have hmem := mined_neighbour_mem h4 (floodPath_start h5).1 hm1
      have hcard := hc x y h1 hm
      rw [h3] at hcard
      have : (b.minedNeighbours x y).card = 0 := by exact_mod_cast hcard.symm
      rw [Finset.card_eq_zero] at this
      rw [this] at hmem
      exact absurd hmem (Finset.not_mem_empty _)

theorem countsCorrect_of_revealsOnly {b b1 : Board} (h : b.RevealsOnly b1)
    (hc : b.CountsCorrect) : b1.CountsCorrect := by
  intro x y hv hm
  have hmn : b1.minedNeighbours x y = b.minedNeighbours x y := by
    unfold Board.minedNeighbours
    simp only [h.size_eq, h.isMine_eq]
  rw [h.adjacentMines_eq, hmn]
  exact hc x y (by rw [← revealsOnly_isValid h]; exact hv) (by rw [← h.isMine_eq]; exact hm)

theorem revealEmpty_total {b : Board} (hwf : b.WF) (x y : Int) :
    ∃ b1, b.revealEmpty x y = some b1 ∧ b.FloodSpec x y b1 :=
  revealEmptyAux_spec (b.unrevealedCount + 1) b x y hwf (Nat.lt_succ_self _)

theorem calculateAdjacentMines_countsCorrect {b : Board} (hwf : b.WF) :
    b.calculateAdjacentMines.CountsCorrect := by
  intro x y hv hm
  have hs := calculateAdjacentMines_same hwf
  have hv0 : b.isValid x y = true := by
    rw [isValid_iff] at hv ⊢; rw [hs.size_eq] at hv; exact hv
  rw [calculateAdjacentMines_count hwf, if_pos ⟨hv0, by rw [← hs.isMine_eq]; exact hm⟩,
    countAround_eq_card, minedNeighbours_congr hs]

theorem revealAround_mono {f g : Board → Int → Int → Option Board}
    (hfg : ∀ b x y b1, f b x y = some b1 → g b x y = some b1) (x y : Int)
    (l : List (Int × Int)) :
    ∀ b b1, revealAround f x y l b = some b1 → revealAround g x y l b = some b1 := by
  induction l with
  | nil => intro b b1 h; exact h
  | cons p rest ih =>
    intro b b1 h
    simp only [revealAround] at h ⊢
    cases hf : f b (x + p.1) (y + p.2) with
    | none => rw [hf] at h; exact absurd h (by simp)
    | some b2 =>
      rw [hf] at h
      rw [hfg _ _ _ _ hf]
      exact ih b2 b1 h

theorem revealEmptyAux_succ (fuel : Nat) :
    ∀ (b : Board) (x y : Int) (b1 : Board),
      b.revealEmptyAux fuel x y = some b1 → b.revealEmptyAux (fuel + 1) x y = some b1 := by
  induction fuel with
  | zero => intro b x y b1 h; exact absurd h (by simp [Board.revealEmptyAux])
  | succ fuel ih =>
    intro b x y b1 h
    unfold Board.revealEmptyAux at h ⊢
    split
    · rename_i hc; rw [if_pos hc] at h; exact h
    · rename_i hc
      rw [if_neg hc] at h
      simp only at h ⊢
      split
      · rename_i hz; rw [if_pos hz] at h
        exact revealAround_mono ih x y offsets _ _ h
      · rename_i hz; rw [if_neg hz] at h; exact h

theorem placeMines_spec {b b1 : Board} {x y : Int} {samples : List (Int × Int)}
    (hwf : b.WF) (hfresh : ∀ u v, b.cellAt u v = Cell.create) (hv : b.isValid x y = true)
    (hs : ∀ p ∈ samples, b.isValid p.1 p.2 = true)
    (h : b.placeMines x y samples = some b1) :
    b1.WF ∧ b1.size = b.size ∧ b1.numMines = b.numMines ∧ b1.CountsCorrect ∧
      (b1.cellAt x y).isMine = false ∧ ∀ u v, (b1.cellAt u v).isRevealed = false := by
  unfold Board.placeMines at h
  cases hp : Board.placeLoop x y samples b 0 with
  | none => rw [hp] at h; exact absurd h (by simp)
  | some b2 =>
    rw [hp] at h
    obtain rfl := Option.some.inj h
    have hf0 : (b.cellAt x y).isMine = false := by rw [hfresh]; rfl
    obtain ⟨r1, r2, _⟩ := placeLoop_spec x y samples b 0 b2 hwf hv hs hf0 hp
    have hc := calculateAdjacentMines_same r1.wf
    refine ⟨hc.wf, hc.size_eq.trans r1.size_eq, hc.numMines_eq.trans r1.numMines_eq, ?_, ?_, ?_⟩
    · intro u v huv hm
      exact calculateAdjacentMines_countsCorrect r1.wf u v huv hm
    · rw [hc.isMine_eq]; exact r2
    · intro u v
      rw [hc.isRevealed_eq, r1.isRevealed_eq, hfresh]; rfl

theorem inv_create {n : Int} {b : Board} (h : Board.create n = Except.ok b) : b.Inv := by
  refine ⟨create_WF h, fun _ => create_cellAt h, ?_, ?_⟩
  · intro hf
    obtain ⟨_, rfl⟩ := create_eq h
    exact absurd hf (by simp)
  · intro u v hr
    rw [create_cellAt h] at hr
    exact absurd hr (by simp [Cell.create])

theorem inv_reveal {b b1 : Board} {x y : Int} (hinv : b.Inv) (hfm : b.firstMove = false)
    (hm : (b.cellAt x y).isMine = false) (hspec : b.FloodSpec x y b1) : b1.Inv := by
  have hfm1 : b1.firstMove = false := by rw [hspec.only.firstMove_eq]; exact hfm
  refine ⟨hspec.only.wf, ?_, fun _ => countsCorrect_of_revealsOnly hspec.only (hinv.counts hfm),
    ?_⟩
  · intro hf; rw [hfm1] at hf; exact absurd hf (by simp)
  · intro u v hr
    rw [hspec.only.isMine_eq]
    cases hb : (b.cellAt u v).isRevealed
    · exact floodPath_no_mine (hinv.counts hfm) (hspec.sound u v hr hb) hm
    · exact hinv.safe u v hb

theorem inv_placed {b b1 : Board} {x y : Int} {samples : List (Int × Int)} (hinv : b.Inv)
    (hfm : b.firstMove = true) (hv : b.isValid x y = true)
    (hs : ∀ p ∈ samples, b.isValid p.1 p.2 = true)
    (h : b.placeMines x y samples = some b1) :
    b1.clearFirstMove.Inv ∧ (b1.clearFirstMove.cellAt x y).isMine = false ∧
      b1.clearFirstMove.isValid x y = true := by
  obtain ⟨h1, h2, _, h4, h5, h6⟩ := placeMines_spec hinv.wf (hinv.fresh hfm) hv hs h
  refine ⟨⟨h1, ?_, fun _ => h4, ?_⟩, h5, ?_⟩
  · intro hf; exact absurd hf (by simp [Board.clearFirstMove])
  · intro u v hr
    have := h6 u v
    rw [show (b1.clearFirstMove.cellAt u v) = b1.cellAt u v from rfl] at hr
    rw [this] at hr; exact absurd hr (by simp)
  · rw [isValid_iff] at hv ⊢
    rw [show b1.clearFirstMove.size = b1.size from rfl, h2]; exact hv

theorem makeMove_eq (b : Board) (x y : Int) (samples : List (Int × Int)) :
    b.makeMove x y samples =
      if b.isValid x y = false then some (false, b)
      else
        (if b.firstMove = true then (b.placeMines x y samples).map Board.clearFirstMove
          else some b).bind
          (fun b1 => if (b1.cellAt x y).hasMine = true then some (false, b1)
            else (b1.revealEmpty x y).map (fun b2 => (true, b2))) := by
  unfold Board.makeMove
  cases hv : b.isValid x y
  · simp
  · generalize (if b.firstMove = true then (b.placeMines x y samples).map Board.clearFirstMove
      else some b) = o
    cases o with
    | none => simp
    | some b1 =>
      cases hm : (b1.cellAt x y).hasMine
      · cases hr : b1.revealEmpty x y <;> simp [hm, hr]
      · simp [hm]

theorem inv_makeMove {b b1 : Board} {x y : Int} {samples : List (Int × Int)} {r : Bool}
    (hinv : b.Inv) (hs : ∀ p ∈ samples, b.isValid p.1 p.2 = true)
    (h : b.makeMove x y samples = some (r, b1)) : b1.Inv := by
  rw [makeMove_eq] at h
  cases hv : b.isValid x y
  · rw [if_pos hv] at h
    obtain ⟨_, rfl⟩ := Prod.mk.inj (Option.some.inj h)
    exact hinv
  · rw [if_neg (by simp [hv])] at h
    have step : ∀ b2 : Board, b2.Inv → b2.firstMove = false →
        (if (b2.cellAt x y).hasMine = true then some (false, b2)
          else (b2.revealEmpty x y).map (fun b3 => (true, b3))) = some (r, b1) → b1.Inv := by
      intro b2 hinv2 hfm2 h2
      cases hm : (b2.cellAt x y).hasMine
      · rw [if_neg (by simp [hm])] at h2
        obtain ⟨b3, hb3, hspec⟩ := revealEmpty_total hinv2.wf x y
        rw [hb3] at h2
        obtain ⟨_, rfl⟩ := Prod.mk.inj (Option.some.inj h2)
        exact inv_reveal hinv2 hfm2 hm hspec
      · rw [if_pos hm] at h2
        obtain ⟨_, rfl⟩ := Prod.mk.inj (Option.some.inj h2)
        exact hinv2
    cases hfm : b.firstMove
    · rw [if_neg (by simp [hfm])] at h
      exact step b hinv hfm h
    · rw [if_pos hfm] at h
      cases hp : b.placeMines x y samples with
      | none => rw [hp] at h; exact absurd h (by simp)
      | some b2 =>
        rw [hp] at h
        exact step _ (inv_placed hinv hfm hv hs hp).1 rfl h

theorem inv_reachable {n : Int} {b : Board} (h : Board.Reachable n b) : b.Inv := by
  induction h with
  | init b hb => exact inv_create hb
  | move b x y samples r b1 _ hs hm ih => exact inv_makeMove ih hs hm

/-- C4. In every board state reachable from `Board(N)` (which exists only for `N ≥ 9`) by any
sequence of `makeMove` calls, no cell that has a mine is marked revealed. -/
theorem reachable_no_revealed_mine (n : Int) (b : Board)
    (h : Board.Reachable n b) (x y : Int) (hm : (b.cellAt x y).hasMine = true) :
    (b.cellAt x y).isOpen = false := by
  cases ho : (b.cellAt x y).isOpen
  · rfl
  · have := (inv_reachable h).safe x y ho
    rw [show (b.cellAt x y).isMine = (b.cellAt x y).hasMine from rfl, hm] at this
    exact absurd this (by simp)

set_option maxRecDepth 100000 in
theorem reachable_no_revealed_mine_witness :
    Board.Reachable 9 demoAfter ∧ (demoAfter.cellAt 1 1).hasMine = true ∧
      (demoAfter.cellAt 1 1).isOpen = false :=
  have hr : Board.Reachable 9 demoAfter :=
    Board.Reachable.move demoStart 5 5 demoSamples true demoAfter
      (Board.Reachable.init demoStart rfl) (by decide) (by decide)
  ⟨hr, by decide, reachable_no_revealed_mine 9 demoAfter hr 1 1 (by decide)⟩

/-- C8. On a freshly constructed `Board(N)` (so `N ≥ 9`), for every in-bounds `(x, y)` and
every sequence of in-bounds samples on which placement finishes, the first `makeMove(x, y)`
returns true, leaves cell `(x, y)` revealed and clears the first-move flag. -/
theorem first_move_safe (n x y : Int) (samples : List (Int × Int)) (b bp : Board)
    (hb : Board.create n = Except.ok b) (hv : b.isValid x y = true)
    (hs : ∀ p ∈ samples, b.isValid p.1 p.2 = true)
    (hp : b.placeMines x y samples = some bp) :
    ∃ b1, b.makeMove x y samples = some (true, b1) ∧ (b1.cellAt x y).isOpen = true ∧
      b1.firstMove = false := by
  have hinv := inv_create hb
  have hfm : b.firstMove = true := by
    obtain ⟨_, rfl⟩ := create_eq hb; rfl
  obtain ⟨hinv1, hm1, hv1⟩ := inv_placed hinv hfm hv hs hp
  obtain ⟨b1, hb1, hspec⟩ := revealEmpty_total hinv1.wf x y
  refine ⟨b1, ?_, hspec.start hv1, ?_⟩
  · rw [makeMove_eq, if_neg (by simp [hv]), if_pos hfm, hp]
    simp only [Option.map_some', Option.some_bind]
    rw [if_neg (by simp [Cell.hasMine, hm1]), hb1]
    rfl
  · rw [hspec.only.firstMove_eq]; rfl

set_option maxRecDepth 100000 in
theorem first_move_safe_witness :
    ∃ b1, demoStart.makeMove 5 5 demoSamples = some (true, b1) ∧
      (b1.cellAt 5 5).isOpen = true ∧ b1.firstMove = false :=
  first_move_safe 9 5 5 demoSamples demoStart
    ((demoStart.placeMines 5 5 demoSamples).getD demoStart)
    rfl (by decide) (by decide) (by decide)

/-- C9. On a well-formed board with mines already placed, for every in-bounds `(x, y)`,
`makeMove(x, y)` returns; it returns true iff cell `(x, y)` has no mine, and whenever it
returns true cell `(x, y)` is revealed afterwards. -/
theorem makeMove_true_iff (b : Board) (x y : Int) (samples : List (Int × Int))
    (hwf : b.WF) (hfm : b.firstMove = false) (hv : b.isValid x y = true) :
    ∃ r b1, b.makeMove x y samples = some (r, b1) ∧
      (r = true ↔ (b.cellAt x y).hasMine = false) ∧
      (r = true → (b1.cellAt x y).isOpen = true) := by
  rw [makeMove_eq, if_neg (by simp [hv]), if_neg (by simp [hfm])]
  simp only [Option.some_bind]
  cases hm : (b.cellAt x y).hasMine
  · obtain ⟨b1, hb1, hspec⟩ := revealEmpty_total hwf x y
    refine ⟨true, b1, ?_, by simp, fun _ => hspec.start hv⟩
    rw [if_neg (by simp), hb1]; rfl
  · exact ⟨false, b, by rw [if_pos rfl], by simp, by simp⟩

set_option maxRecDepth 100000 in
theorem makeMove_true_iff_witness :
    ∃ r b1, smallBoard.makeMove 1 3 [] = some (r, b1) ∧
      (r = true ↔ (smallBoard.cellAt 1 3).hasMine = false) ∧
      (r = true → (b1.cellAt 1 3).isOpen = true) :=
  makeMove_true_iff smallBoard 1 3 [] (by decide) (by decide) (by decide)

/-! ## Construction, idempotence and termination -/

/-- C11 (as stated, refuted). `Board(46341)` is constructed, but `46341 * 46341` does not fit
a 32-bit `int`: the stored `numMines` is `-357913169`, not `46341 * 46341 / 6`. -/
theorem create_numMines_overflow :
    ∃ b : Board, Board.create 46341 = Except.ok b ∧ b.numMines = -357913169 ∧
      b.numMines ≠ 46341 * 46341 / 6 := by
  obtain ⟨b, hc⟩ : ∃ b, Board.create 46341 = Except.ok b := by
    unfold Board.create
    rw [if_neg (by decide)]
    exact ⟨_, rfl⟩
  have hnum : b.numMines = -357913169 := by
    rw [create_numMines hc]; decide
  exact ⟨b, hc, hnum, by rw [hnum]; decide⟩

/-- C11 (amended). For every `n ≥ 9`, `Board(n)` yields a grid of `n + 1` rows of `n + 1`
cells, every cell with no mine, unrevealed and with adjacency count 0, size `n` and the
first-move flag set; `numMines` equals `n * n / 6` by integer division whenever `n ≤ 46340`,
that is whenever `n * n` fits a 32-bit `int`. -/
theorem create_fresh (n : Int) (h9 : 9 ≤ n) :
    ∃ b : Board, Board.create n = Except.ok b ∧
      b.grid.length = (n + 1).toNat ∧
      (∀ row ∈ b.grid, row.length = (n + 1).toNat ∧
        ∀ c ∈ row, c.hasMine = false ∧ c.isOpen = false ∧ c.getAdjacentMines = 0) ∧
      b.size = n ∧ b.firstMove = true ∧ (n ≤ 46340 → b.numMines = n * n / 6) := by
  obtain ⟨b, hc⟩ : ∃ b, Board.create n = Except.ok b := by
    unfold Board.create
    rw [if_neg (by omega)]
    exact ⟨_, rfl⟩
  refine ⟨b, hc, ?_, ?_, create_size hc, ?_, ?_⟩
  · obtain ⟨_, rfl⟩ := create_eq hc
    simp
  · obtain ⟨_, rfl⟩ := create_eq hc
    intro row hrow
    rw [List.eq_of_mem_replicate hrow]
    refine ⟨by simp, ?_⟩
    intro c hcell
    rw [List.eq_of_mem_replicate hcell]
    exact ⟨rfl, rfl, rfl⟩
  · obtain ⟨_, rfl⟩ := create_eq hc
    rfl
  · intro hmax
    rw [create_numMines hc, numMines_small h9 hmax]

theorem create_fresh_witness :
    ∃ b : Board, Board.create 9 = Except.ok b ∧
      b.grid.length = 10 ∧
      (∀ row ∈ b.grid, row.length = 10 ∧
        ∀ c ∈ row, c.hasMine = false ∧ c.isOpen = false ∧ c.getAdjacentMines = 0) ∧
      b.size = 9 ∧ b.firstMove = true ∧ b.numMines = 13 := by
  obtain ⟨b, h1, h2, h3, h4, h5, h6⟩ := create_fresh 9 (by decide)
  exact ⟨b, h1, h2, h3, h4, h5, h6 (by decide)⟩

theorem revealEmptyAux_mono (fuel k : Nat) (b : Board) (x y : Int) (b1 : Board)
    (h : b.revealEmptyAux fuel x y = some b1) : b.revealEmptyAux (fuel + k) x y = some b1 := by
  induction k with
  | zero => exact h
  | succ k ih => exact revealEmptyAux_succ (fuel + k) b x y b1 ih

/-- C13. On a well-formed board, `revealEmpty(x, y)` on an out-of-bounds coordinate or on an
already revealed cell returns the board unchanged; consequently applying `revealEmpty(x, y)`
twice gives the same state as applying it once. -/
theorem revealEmpty_idempotent (b : Board) (x y : Int) (hwf : b.WF) :
    ((b.isValid x y = false ∨ (b.cellAt x y).isOpen = true) → b.revealEmpty x y = some b) ∧
      ∃ b1, b.revealEmpty x y = some b1 ∧ b1.revealEmpty x y = some b1 := by
  have hstop : ∀ c : Board, (c.isValid x y = false ∨ (c.cellAt x y).isOpen = true) →
      c.revealEmpty x y = some c := by
    intro c hc
    unfold Board.revealEmpty Board.revealEmptyAux
    rw [if_pos]
    rcases hc with hc | hc <;> simp [hc]
  refine ⟨hstop b, ?_⟩
  obtain ⟨b1, hb1, hspec⟩ := revealEmpty_total hwf x y
  refine ⟨b1, hb1, hstop b1 ?_⟩
  cases hv : b.isValid x y
  · left; rw [revealsOnly_isValid hspec.only]; exact hv
  · right; exact hspec.start hv

set_option maxRecDepth 100000 in
theorem revealEmpty_idempotent_witness :
    ((smallBoard.isValid 1 3 = false ∨ (smallBoard.cellAt 1 3).isOpen = true) →
        smallBoard.revealEmpty 1 3 = some smallBoard) ∧
      ∃ b1, smallBoard.revealEmpty 1 3 = some b1 ∧ b1.revealEmpty 1 3 = some b1 :=
  revealEmpty_idempotent smallBoard 1 3 (by decide)

/-- C16. On a well-formed board `revealEmpty` terminates for every start coordinate, in or
out of bounds: a call that does not return immediately reveals its cell, which strictly
decreases the number of unrevealed in-grid cells, and no call increases that number; hence
a recursion depth of one more than that number always suffices, and any larger depth bound
gives the same result. -/
theorem revealEmpty_terminates (b : Board) (x y : Int) (hwf : b.WF) :
    (∃ b1, b.revealEmpty x y = some b1 ∧ b1.unrevealedCount ≤ b.unrevealedCount ∧
        ∀ fuel, b.unrevealedCount < fuel → b.revealEmptyAux fuel x y = some b1) ∧
      (b.isValid x y = true → (b.cellAt x y).isOpen = false →
        (b.setCell x y (b.cellAt x y).reveal).unrevealedCount < b.unrevealedCount) := by
  refine ⟨?_, fun hv hr => reveal_count_lt hwf hv hr⟩
  obtain ⟨b1, hb1, hspec⟩ := revealEmpty_total hwf x y
  refine ⟨b1, hb1, revealsOnly_count_le hspec.only, ?_⟩
  intro fuel hfuel
  have := revealEmptyAux_mono (b.unrevealedCount + 1) (fuel - (b.unrevealedCount + 1)) b x y b1
    hb1
  rwa [Nat.add_sub_cancel' (by omega)] at this

set_option maxRecDepth 100000 in
theorem revealEmpty_terminates_witness :
    (∃ b1, smallBoard.revealEmpty 1 3 = some b1 ∧
        b1.unrevealedCount ≤ smallBoard.unrevealedCount ∧
        ∀ fuel, smallBoard.unrevealedCount < fuel →
          smallBoard.revealEmptyAux fuel 1 3 = some b1) ∧
      (smallBoard.isValid 1 3 = true → (smallBoard.cellAt 1 3).isOpen = false →
        (smallBoard.setCell 1 3 (smallBoard.cellAt 1 3).reveal).unrevealedCount
          < smallBoard.unrevealedCount) :=
  revealEmpty_terminates smallBoard 1 3 (by decide)

/-! ## Later moves: frame and win check -/

theorem makeMove_cases {b b1 : Board} {x y : Int} {samples : List (Int × Int)} {r : Bool}
    (h : b.makeMove x y samples = some (r, b1)) :
    (b.isValid x y = false ∧ r = false ∧ b1 = b) ∨
      (b.isValid x y = true ∧ ∃ b2,
        ((b.firstMove = false ∧ b2 = b) ∨
          (b.firstMove = true ∧ ∃ bp, b.placeMines x y samples = some bp ∧
            b2 = bp.clearFirstMove)) ∧
        (((b2.cellAt x y).hasMine = true ∧ r = false ∧ b1 = b2) ∨
          ((b2.cellAt x y).hasMine = false ∧ r = true ∧ b2.revealEmpty x y = some b1))) := by
  rw [makeMove_eq] at h
  cases hv : b.isValid x y
  · rw [if_pos hv] at h
    obtain ⟨rfl, rfl⟩ := Prod.mk.inj (Option.some.inj h)
    exact Or.inl ⟨rfl, rfl, rfl⟩
  · rw [if_neg (by simp [hv])] at h
    right
    refine ⟨rfl, ?_⟩
    have step : ∀ b2 : Board,
        (if (b2.cellAt x y).hasMine = true then some (false, b2)
          else (b2.revealEmpty x y).map (fun b3 => (true, b3))) = some (r, b1) →
        (((b2.cellAt x y).hasMine = true ∧ r = false ∧ b1 = b2) ∨
          ((b2.cellAt x y).hasMine = false ∧ r = true ∧ b2.revealEmpty x y = some b1)) := by
      intro b2 h2
      cases hm : (b2.cellAt x y).hasMine
      · rw [if_neg (by simp [hm])] at h2
        cases hr : b2.revealEmpty x y with
        | none => rw [hr] at h2; exact absurd h2 (by simp)
        | some b3 =>
          rw [hr] at h2
          obtain ⟨rfl, rfl⟩ := Prod.mk.inj (Option.some.inj h2)
          exact Or.inr ⟨rfl, rfl, rfl⟩
      · rw [if_pos hm] at h2
        obtain ⟨rfl, rfl⟩ := Prod.mk.inj (Option.some.inj h2)
        exact Or.inl ⟨rfl, rfl, rfl⟩
    cases hfm : b.firstMove
    · rw [if_neg (by simp [hfm])] at h
      exact ⟨b, Or.inl ⟨rfl, rfl⟩, step b h⟩
    · rw [if_pos hfm] at h
      cases hp : b.placeMines x y samples with
      | none => rw [hp] at h; exact absurd h (by simp)
      | some bp =>
        rw [hp] at h
        exact ⟨bp.clearFirstMove, Or.inr ⟨rfl, bp, rfl, rfl⟩, step _ h⟩

theorem revealEmpty_revealsOnly {b b1 : Board} (hwf : b.WF) {x y : Int}
    (h : b.revealEmpty x y = some b1) : b.FloodSpec x y b1 := by
  obtain ⟨b2, hb2, hspec⟩ := revealEmpty_total hwf x y
  rw [hb2] at h
  obtain rfl := Option.some.inj h
  exact hspec

theorem makeMove_revealsOnly {b b1 : Board} {x y : Int} {samples : List (Int × Int)}
    {r : Bool} (hwf : b.WF) (hfm : b.firstMove = false)
    (h : b.makeMove x y samples = some (r, b1)) : b.RevealsOnly b1 := by
  rcases makeMove_cases h with ⟨_, _, rfl⟩ | ⟨_, b2, hstart, hend⟩
  · exact revealsOnly_refl hwf
  · rcases hstart with ⟨_, rfl⟩ | ⟨hf, _⟩
    · rcases hend with ⟨_, _, rfl⟩ | ⟨_, _, hr⟩
      · exact revealsOnly_refl hwf
      · exact (revealEmpty_revealsOnly hwf hr).only
    · rw [hfm] at hf; exact absurd hf (by simp)

theorem makeMove_total {b : Board} (hwf : b.WF) (hfm : b.firstMove = false) (x y : Int)
    (samples : List (Int × Int)) : ∃ r b1, b.makeMove x y samples = some (r, b1) := by
  rw [makeMove_eq]
  cases hv : b.isValid x y
  · exact ⟨false, b, by rw [if_pos rfl]⟩
  · rw [if_neg (by simp), if_neg (by simp [hfm])]
    simp only [Option.some_bind]
    cases hm : (b.cellAt x y).hasMine
    · obtain ⟨b1, hb1, _⟩ := revealEmpty_total hwf x y
      exact ⟨true, b1, by rw [if_neg (by simp), hb1]; rfl⟩
    · exact ⟨false, b, by rw [if_pos rfl]⟩

theorem later_revealsOnly {b b1 : Board} (hwf : b.WF) (hfm : b.firstMove = false)
    (h : b.Later b1) : b.RevealsOnly b1 := by
  induction h with
  | refl => exact revealsOnly_refl hwf
  | move b1 x y samples r b2 _ hm ih =>
    exact revealsOnly_trans ih
      (makeMove_revealsOnly ih.wf (by rw [ih.firstMove_eq]; exact hfm) hm)

/-- C14. Once mines are placed (first-move flag cleared) on a well-formed board, every later
`makeMove` returns, and after any number of them the size, `numMines`, and the mine flag
and adjacency count of every cell are as before: only `isRevealed` flags change, so correct
adjacency counts stay correct. -/
theorem later_moves_frame (b : Board) (hwf : b.WF) (hfm : b.firstMove = false) :
    (∀ b1, b.Later b1 → ∀ x y samples, ∃ r b2, b1.makeMove x y samples = some (r, b2)) ∧
      ∀ b1, b.Later b1 →
        b1.size = b.size ∧ b1.numMines = b.numMines ∧ b1.firstMove = false ∧
        (∀ u v, (b1.cellAt u v).hasMine = (b.cellAt u v).hasMine ∧
          (b1.cellAt u v).getAdjacentMines = (b.cellAt u v).getAdjacentMines) ∧
        (b.CountsCorrect → b1.CountsCorrect) := by
  refine ⟨?_, ?_⟩
  · intro b1 hl x y samples
    have ho := later_revealsOnly hwf hfm hl
    exact makeMove_total ho.wf (by rw [ho.firstMove_eq]; exact hfm) x y samples
  · intro b1 hl
    have ho := later_revealsOnly hwf hfm hl
    exact ⟨ho.size_eq, ho.numMines_eq, by rw [ho.firstMove_eq]; exact hfm,
      fun u v => ⟨ho.isMine_eq u v, ho.adjacentMines_eq u v⟩,
      countsCorrect_of_revealsOnly ho⟩

set_option maxRecDepth 100000 in
theorem smallAfter_later : smallBoard.Later smallAfter :=
  Board.Later.move smallBoard 1 3 [] true smallAfter Board.Later.refl (by decide)

set_option maxRecDepth 100000 in
theorem later_moves_frame_witness :
    (∃ r b2, smallAfter.makeMove 3 2 [] = some (r, b2)) ∧
      smallAfter.size = smallBoard.size ∧ smallAfter.numMines = smallBoard.numMines ∧
      smallAfter.firstMove = false ∧
      (∀ u v, (smallAfter.cellAt u v).hasMine = (smallBoard.cellAt u v).hasMine ∧
        (smallAfter.cellAt u v).getAdjacentMines
          = (smallBoard.cellAt u v).getAdjacentMines) ∧
      (smallBoard.CountsCorrect → smallAfter.CountsCorrect) :=
  have h := later_moves_frame smallBoard (by decide) (by decide)
  ⟨h.1 smallAfter smallAfter_later 3 2 [], h.2 smallAfter smallAfter_later⟩

/-- C17. On a well-formed board with mines placed, after any number of further `makeMove`
calls no cell has been un-revealed; `checkWin` is true exactly when every in-grid cell
without a mine is revealed, so it is false while some such cell is unrevealed and true from
the move that reveals the last one; once true it stays true. -/
theorem later_moves_checkWin (b : Board) (hwf : b.WF) (hfm : b.firstMove = false) :
    ∀ b1, b.Later b1 →
      (∀ u v, (b.cellAt u v).isOpen = true → (b1.cellAt u v).isOpen = true) ∧
      (b1.checkWin = true ↔
        ∀ x y, b.isValid x y = true → (b.cellAt x y).hasMine = false →
          (b1.cellAt x y).isOpen = true) ∧
      (b.checkWin = true → b1.checkWin = true) := by
  intro b1 hl
  have ho := later_revealsOnly hwf hfm hl
  have hiff : b1.checkWin = true ↔
      ∀ x y, b.isValid x y = true → (b.cellAt x y).hasMine = false →
        (b1.cellAt x y).isOpen = true := by
    unfold Board.checkWin
    rw [all_loopRange]
    simp only [all_loopRange, isValid_iff, ho.size_eq]
    constructor
    · intro h x y hv hm
      have := h y hv.2.2.1 hv.2.2.2 x hv.1 hv.2.1
      have hm1 : (b1.cellAt x y).hasMine = false := (ho.isMine_eq x y).trans hm
      simpa [hm1] using this
    · intro h y hy1 hy2 x hx1 hx2
      have := h x y ⟨hx1, hx2, hy1, hy2⟩
      cases hm : (b1.cellAt x y).hasMine
      · have hm0 : (b.cellAt x y).hasMine = false := (ho.isMine_eq x y).symm.trans hm
        simp [this hm0]
      · simp
  refine ⟨ho.mono, hiff, ?_⟩
  intro hw
  rw [hiff]
  intro x y hv hm
  have hiff0 : b.checkWin = true →
      ∀ x y, b.isValid x y = true → (b.cellAt x y).hasMine = false →
        (b.cellAt x y).isOpen = true := by
    intro hw0
    unfold Board.checkWin at hw0
    rw [all_loopRange] at hw0
    simp only [all_loopRange] at hw0
    intro x y hv hm
    rw [isValid_iff] at hv
    have := hw0 y hv.2.2.1 hv.2.2.2 x hv.1 hv.2.1
    simpa [hm] using this
  exact ho.mono x y (hiff0 hw x y hv hm)

set_option maxRecDepth 100000 in
theorem later_moves_checkWin_witness :
    (∀ u v, (smallBoard.cellAt u v).isOpen = true → (smallAfter.cellAt u v).isOpen = true) ∧
      (smallAfter.checkWin = true ↔
        ∀ x y, smallBoard.isValid x y = true → (smallBoard.cellAt x y).hasMine = false →
          (smallAfter.cellAt x y).isOpen = true) ∧
      (smallBoard.checkWin = true → smallAfter.checkWin = true) :=
  later_moves_checkWin smallBoard (by decide) (by decide) smallAfter smallAfter_later

/-! ## Further invariants of reachable states -/

theorem minedNeighbours_card_le (b : Board) (x y : Int) :
    (b.minedNeighbours x y).card ≤ 8 := by
  unfold Board.minedNeighbours
  refine (Finset.card_filter_le _ _).trans ?_
  decide

theorem placeMines_spec2 {b b1 : Board} {x y : Int} {samples : List (Int × Int)}
    (hwf : b.WF) (hfresh : ∀ u v, b.cellAt u v = Cell.create) (hv : b.isValid x y = true)
    (hs : ∀ p ∈ samples, b.isValid p.1 p.2 = true)
    (h : b.placeMines x y samples = some b1) :
    (b1.mineCells.card : Int) = max 0 b.numMines ∧
      ∀ u v, 0 ≤ (b1.cellAt u v).adjacentMines ∧ (b1.cellAt u v).adjacentMines ≤ 8 ∧
        ((b1.cellAt u v).isMine = true → (b1.cellAt u v).adjacentMines = 0) := by
  unfold Board.placeMines at h
  cases hp : Board.placeLoop x y samples b 0 with
  | none => rw [hp] at h; exact absurd h (by simp)
  | some b2 =>
    rw [hp] at h
    obtain rfl := Option.some.inj h
    have hf0 : (b.cellAt x y).isMine = false := by rw [hfresh]; rfl
    obtain ⟨r1, _, r3⟩ := placeLoop_spec x y samples b 0 b2 hwf hv hs hf0 hp
    have hc := calculateAdjacentMines_same r1.wf
    have hempty : b.mineCells = ∅ := by
      ext p; simp [mem_mineCells, hfresh, Cell.create]
    refine ⟨?_, ?_⟩
    · rw [mineCells_congr hc.size_eq hc.isMine_eq, r3, hempty]
      simp
    · intro u v
      have hold : (b2.cellAt u v).adjacentMines = 0 := by
        rw [r1.adjacentMines_eq, hfresh]; rfl
      rw [calculateAdjacentMines_count r1.wf, hc.isMine_eq]
      by_cases hcond : b2.isValid u v = true ∧ (b2.cellAt u v).isMine = false
      · rw [if_pos hcond, countAround_eq_card]
        have := minedNeighbours_card_le b2 u v
        refine ⟨by positivity, by exact_mod_cast this, ?_⟩
        intro hm; rw [hcond.2] at hm; exact absurd hm (by simp)
      · rw [if_neg hcond, hold]
        exact ⟨le_refl _, by norm_num, fun _ => rfl⟩

theorem inv2_create {n : Int} {b : Board} (h : Board.create n = Except.ok b) :
    b.Inv2 n := by
  have hcell := create_cellAt h
  refine ⟨create_size h, create_numMines h, ?_, ?_, ?_⟩
  · intro hf
    obtain ⟨_, rfl⟩ := create_eq h
    exact absurd hf (by simp)
  · intro u v
    rw [hcell]
    exact ⟨le_refl _, by decide, fun _ => rfl⟩
  · intro u v hr
    rw [hcell] at hr
    exact absurd hr (by simp [Cell.create])

theorem inv2_reveal {n : Int} {b b1 : Board} {x y : Int} (hinv : b.Inv2 n)
    (hfm : b.firstMove = false) (hspec : b.FloodSpec x y b1) : b1.Inv2 n := by
  have ho := hspec.only
  refine ⟨ho.size_eq.trans hinv.size_eq, ho.numMines_eq.trans hinv.numMines_eq, ?_, ?_, ?_⟩
  · intro _
    rw [mineCells_congr ho.size_eq ho.isMine_eq, ho.numMines_eq]
    exact hinv.mines hfm
  · intro u v
    rw [ho.adjacentMines_eq, ho.isMine_eq]
    exact hinv.range u v
  · intro u v hr h0 s t hadj hv
    rw [ho.adjacentMines_eq] at h0
    rw [revealsOnly_isValid ho] at hv
    cases hb : (b.cellAt u v).isRevealed
    · exact hspec.closed u v hr hb h0 s t hadj hv
    · exact ho.mono s t (hinv.closed u v hb h0 s t hadj hv)

theorem inv2_makeMove {n : Int} {b b1 : Board} {x y : Int} {samples : List (Int × Int)}
    {r : Bool} (hinv : b.Inv) (hinv2 : b.Inv2 n)
    (hs : ∀ p ∈ samples, b.isValid p.1 p.2 = true)
    (h : b.makeMove x y samples = some (r, b1)) : b1.Inv2 n := by
  rcases makeMove_cases h with ⟨_, _, rfl⟩ | ⟨hv, b2, hstart, hend⟩
  · exact hinv2
  · have hb2 : b2.Inv2 n ∧ b2.WF ∧ b2.firstMove = false := by
      rcases hstart with ⟨hf, rfl⟩ | ⟨hf, bp, hp, rfl⟩
      · exact ⟨hinv2, hinv.wf, hf⟩
      · obtain ⟨h1, h2, h3, _, _, h6⟩ := placeMines_spec hinv.wf (hinv.fresh hf) hv hs hp
        obtain ⟨k1, k2⟩ := placeMines_spec2 hinv.wf (hinv.fresh hf) hv hs hp
        refine ⟨⟨h2.trans hinv2.size_eq, h3.trans hinv2.numMines_eq, ?_, k2, ?_⟩, h1, rfl⟩
        · intro _
          have e : bp.clearFirstMove.mineCells = bp.mineCells :=
            mineCells_congr rfl (fun _ _ => rfl)
          rw [e, k1]
          exact congrArg (max 0) h3.symm
        · intro u v hr
          have := h6 u v
          rw [show (bp.clearFirstMove.cellAt u v) = bp.cellAt u v from rfl, this] at hr
          exact absurd hr (by simp)
    rcases hend with ⟨_, _, rfl⟩ | ⟨_, _, hr⟩
    · exact hb2.1
    · exact inv2_reveal hb2.1 hb2.2.2 (revealEmpty_revealsOnly hb2.2.1 hr)

theorem inv2_reachable {n : Int} {b : Board} (h : Board.Reachable n b) : b.Inv2 n := by
  induction h with
  | init b hb => exact inv2_create hb
  | move b x y samples r b1 hreach hs hm ih =>
    exact inv2_makeMove (inv_reachable hreach) ih hs hm

/-- C18. In every board state reachable from `Board(N)` (which exists only for `N ≥ 9`) by
`makeMove` calls, every cell's adjacency count lies in `0..8`, and every cell that has a
mine has the count 0 it was created with. -/
theorem reachable_count_range (n : Int) (b : Board) (h : Board.Reachable n b) (x y : Int) :
    0 ≤ (b.cellAt x y).getAdjacentMines ∧ (b.cellAt x y).getAdjacentMines ≤ 8 ∧
      ((b.cellAt x y).hasMine = true → (b.cellAt x y).getAdjacentMines = 0) :=
  (inv2_reachable h).range x y

/-- C19. In every board state reachable from `Board(N)` (which exists only for `N ≥ 9`) by
`makeMove` calls, every revealed cell whose adjacency count is 0 has all of its in-grid
eight neighbours revealed. -/
theorem reachable_zero_closed (n : Int) (b : Board) (h : Board.Reachable n b) (x y s t : Int)
    (hr : (b.cellAt x y).isOpen = true) (h0 : (b.cellAt x y).getAdjacentMines = 0)
    (hadj : Adjacent x y s t) (hv : b.isValid s t = true) :
    (b.cellAt s t).isOpen = true :=
  (inv2_reachable h).closed x y hr h0 s t hadj hv

set_option maxRecDepth 100000 in
theorem demoAfter_reachable : Board.Reachable 9 demoAfter :=
  Board.Reachable.move demoStart 5 5 demoSamples true demoAfter
    (Board.Reachable.init demoStart rfl) (by decide) (by decide)

set_option maxRecDepth 100000 in
theorem demoAfter2_reachable : Board.Reachable 9 demoAfter2 :=
  Board.Reachable.move demoAfter 4 1 [] true demoAfter2 demoAfter_reachable
    (by decide) (by decide)

set_option maxRecDepth 100000 in
theorem reachable_count_range_witness :
    (0 ≤ (demoAfter.cellAt 5 5).getAdjacentMines ∧
      (demoAfter.cellAt 5 5).getAdjacentMines ≤ 8 ∧
      ((demoAfter.cellAt 5 5).hasMine = true → (demoAfter.cellAt 5 5).getAdjacentMines = 0)) ∧
      (demoAfter.cellAt 5 5).getAdjacentMines = 8 :=
  ⟨reachable_count_range 9 demoAfter demoAfter_reachable 5 5, by decide⟩

set_option maxRecDepth 100000 in
theorem reachable_zero_closed_witness : (demoAfter2.cellAt 5 2).isOpen = true :=
  reachable_zero_closed 9 demoAfter2 demoAfter2_reachable 4 1 5 2 (by decide) (by decide)
    (by decide) (by decide)

/-! ## The game loop (`Game::play`) -/

theorem play_append (samples pre post : List (Int × Int)) :
    ∀ g g1 : Game, Game.play samples pre g = some (none, g1) →
      Game.play samples (pre ++ post) g = Game.play samples post g1 := by
  induction pre with
  | nil =>
    intro g g1 h
    simp only [Game.play] at h
    obtain ⟨_, rfl⟩ := Prod.mk.inj (Option.some.inj h)
    rfl
  | cons p rest ih =>
    intro g g1 h
    obtain ⟨x, y⟩ := p
    simp only [List.cons_append, Game.play] at h ⊢
    cases ht : g.turn samples x y with
    | none => rw [ht] at h; exact absurd h (by simp)
    | some res =>
      obtain ⟨o, g2⟩ := res
      rw [ht] at h
      cases o with
      | none => exact ih g2 g1 h
      | some o => exact absurd h (by simp)

/-- C15. Let the pairs `pre` all have been played without ending the session, leaving board
`g1.board`. If the next pair `(x, y)` makes `makeMove` return false (a mine, or an
out-of-bounds entry) the session ends as lost; if it returns true and `checkWin` holds the
session ends as won; in both cases the pairs `post` entered afterwards are never applied.
If it returns true and `checkWin` does not hold, the session continues with `post`. -/
theorem play_stops (samples pre post : List (Int × Int)) (x y : Int) (g g1 : Game)
    (hpre : Game.play samples pre g = some (none, g1)) :
    (∀ b2, g1.board.makeMove x y samples = some (false, b2) →
        Game.play samples (pre ++ (x, y) :: post) g
          = some (some Outcome.lost, { board := b2 })) ∧
      (g1.board.isValid x y = false →
        Game.play samples (pre ++ (x, y) :: post) g = some (some Outcome.lost, g1)) ∧
      (∀ b2, g1.board.makeMove x y samples = some (true, b2) → b2.checkWin = true →
        Game.play samples (pre ++ (x, y) :: post) g
          = some (some Outcome.won, { board := b2 })) ∧
      (∀ b2, g1.board.makeMove x y samples = some (true, b2) → b2.checkWin = false →
        Game.play samples (pre ++ (x, y) :: post) g
          = Game.play samples post { board := b2 }) := by
  rw [play_append samples pre _ g g1 hpre]
  refine ⟨?_, ?_, ?_, ?_⟩
  · intro b2 hm
    simp [Game.play, Game.turn, hm]
  · intro hv
    have hm : g1.board.makeMove x y samples = some (false, g1.board) := by
      unfold Board.makeMove; simp [hv]
    simp [Game.play, Game.turn, hm]
  · intro b2 hm hw
    simp [Game.play, Game.turn, hm, hw]
  · intro b2 hm hw
    simp [Game.play, Game.turn, hm, hw]

set_option maxRecDepth 100000 in
theorem play_stops_witness :
    Game.play [] [(1, 3), (3, 2), (2, 3)] { board := smallBoard }
      = some (some Outcome.lost,
          { board := ((smallBoard.makeMove 1 3 []).map Prod.snd).getD smallBoard }) :=
  (play_stops [] [(1, 3)] [(2, 3)] 3 2 { board := smallBoard }
    { board := ((smallBoard.makeMove 1 3 []).map Prod.snd).getD smallBoard }
    (by decide)).1 _ (by decide)

/-! ## Room for the mines -/

theorem cells_card (b : Board) (h : 0 ≤ b.size) : (b.cells.card : Int) = b.size * b.size := by
  unfold Board.cells
  rw [Finset.card_product, Int.card_Icc]
  push_cast
  rw [Int.toNat_of_nonneg (by omega)]
  ring

theorem mineCells_subset (b : Board) : b.mineCells ⊆ b.cells :=
  Finset.filter_subset _ _

theorem numMines_le {n : Int} (h9 : 9 ≤ n) : Int.tdiv (wrapInt (n * n)) 6 ≤ n * n - 1 := by
  have h1 : 81 ≤ n * n := by nlinarith
  have hw : wrapInt (n * n) ≤ n * n := by
    unfold wrapInt
    omega
  by_cases hneg : wrapInt (n * n) < 0
  · have h2 : 0 ≤ Int.tdiv (-wrapInt (n * n)) 6 := Int.tdiv_nonneg (by omega) (by norm_num)
    rw [Int.neg_tdiv] at h2
    omega
  · rw [Int.tdiv_eq_ediv (by omega) (by norm_num)]
    omega
theorem free_cell_exists {b : Board} (hsize : 0 ≤ b.size)
    (hroom : (b.mineCells.card : Int) + 2 ≤ b.size * b.size) (fx fy : Int) :
    ∃ x y, b.isValid x y = true ∧ (b.cellAt x y).isMine = false ∧ (x ≠ fx ∨ y ≠ fy) := by
  have hcard : ((b.cells \ b.mineCells).card : Int) = b.size * b.size - b.mineCells.card := by
    rw [Finset.card_sdiff (mineCells_subset b)]
    have := Finset.card_le_card (mineCells_subset b)
    push_cast [Nat.cast_sub this]
    rw [cells_card b hsize]
  have hpos : 0 < ((b.cells \ b.mineCells).erase (fx, fy)).card := by
    have := Finset.pred_card_le_card_erase (s := b.cells \ b.mineCells) (a := (fx, fy))
    omega
  obtain ⟨p, hp⟩ := Finset.card_pos.1 hpos
  rw [Finset.mem_erase, Finset.mem_sdiff, mem_cells, mem_mineCells] at hp
  obtain ⟨hne, hv, hnm⟩ := hp
  refine ⟨p.1, p.2, hv, ?_, ?_⟩
  · cases hm : (b.cellAt p.1 p.2).isMine
    · rfl
    · exact absurd ⟨hv, hm⟩ hnm
  · by_contra hcon
    push_neg at hcon
    exact hne (Prod.ext hcon.1 hcon.2)

theorem placeLoop_can_finish (fx fy : Int) (k : Nat) :
    ∀ b : Board, b.WF → 0 ≤ b.size → b.numMines ≤ b.size * b.size - 1 →
      b.isValid fx fy = true → (b.cellAt fx fy).isMine = false →
      (b.numMines - b.mineCells.card).toNat = k →
      ∃ samples, (∀ p ∈ samples, b.isValid p.1 p.2 = true) ∧
        ∃ b1, Board.placeLoop fx fy samples b b.mineCells.card = some b1 := by
  induction k with
  | zero =>
    intro b _ _ _ _ _ hk
    refine ⟨[], fun p hp => absurd hp (List.not_mem_nil _), b, ?_⟩
    simp only [Board.placeLoop]
    rw [if_neg (by omega)]
  | succ k ih =>
    intro b hwf hsize hle hfv hf hk
    have hlt : (b.mineCells.card : Int) < b.numMines := by omega
    obtain ⟨x, y, hv, hm, hne⟩ := free_cell_exists hsize (by omega) fx fy
    have hsame := setMine_same hwf hv
    have hcells := setMine_mineCells hwf hv
    have hnotin : (x, y) ∉ b.mineCells := by
      rw [mem_mineCells]; simp [hm]
    have hcard : (b.setCell x y ((b.cellAt x y).setMine true)).mineCells.card
        = b.mineCells.card + 1 := by
      rw [hcells, Finset.card_insert_of_not_mem hnotin]
    have hf1 : ((b.setCell x y ((b.cellAt x y).setMine true)).cellAt fx fy).isMine
        = false := by
      rw [cellAt_setCell hwf hv, if_neg (by tauto)]; exact hf
    obtain ⟨rest, hrest, b1, hb1⟩ := ih (b.setCell x y ((b.cellAt x y).setMine true))
      hsame.wf hsize hle hfv hf1 (by rw [hcard]; push_cast; show (b.numMines - _).toNat = k; omega)
    refine ⟨(x, y) :: rest, ?_, b1, ?_⟩
    · intro p hp
      rcases List.mem_cons.1 hp with rfl | hp
      · exact hv
      · exact hrest p hp
    · simp only [Board.placeLoop]
      rw [if_pos hlt, if_pos]
      · rw [hcard] at hb1
        push_cast at hb1
        exact hb1
      · simp only [Bool.and_eq_true, Bool.not_eq_true', Bool.or_eq_true, bne_iff_ne, ne_eq,
          Cell.hasMine]
        exact ⟨hm, hne⟩

/-- C20. For every `N ≥ 9`, `floor(N * N / 6) ≤ N * N - 1`, and so is the `numMines` that
`Board(N)` stores. Hence in every state of the placement loop on that board with fewer than
`numMines` mines there is an in-grid, mine-free cell other than the excluded first-click
cell, and some sequence of in-bounds samples makes the loop finish from there: it cannot be
forced to run forever for lack of free cells. -/
theorem placement_has_room (n fx fy : Int) (b : Board) (hb : Board.create n = Except.ok b) :
    n * n / 6 ≤ n * n - 1 ∧ b.numMines ≤ n * n - 1 ∧
      ∀ b1 : Board, b1.WF → b1.size = n → b1.numMines = b.numMines →
        (b1.mineCells.card : Int) < b1.numMines →
        (∃ x y, b1.isValid x y = true ∧ (b1.cellAt x y).hasMine = false ∧
          (x ≠ fx ∨ y ≠ fy)) ∧
        (b1.isValid fx fy = true → (b1.cellAt fx fy).hasMine = false →
          ∃ samples, (∀ p ∈ samples, b1.isValid p.1 p.2 = true) ∧
            ∃ b2, Board.placeLoop fx fy samples b1 b1.mineCells.card = some b2) := by
  obtain ⟨h9, _⟩ := create_eq hb
  have h81 : 81 ≤ n * n := by nlinarith
  have hnum : b.numMines ≤ n * n - 1 := by
    rw [create_numMines hb]; exact numMines_le h9
  refine ⟨by omega, hnum, ?_⟩
  intro b1 hwf hsize hnm hlt
  have hs0 : 0 ≤ b1.size := by omega
  have hle : b1.numMines ≤ b1.size * b1.size - 1 := by rw [hsize, hnm]; exact hnum
  refine ⟨free_cell_exists hs0 (by omega) fx fy, ?_⟩
  intro hfv hf
  exact placeLoop_can_finish fx fy _ b1 hwf hs0 hle hfv hf rfl

set_option maxRecDepth 100000 in
theorem placement_has_room_witness :
    ((9 : Int) * 9 / 6 ≤ 9 * 9 - 1 ∧ demoStart.numMines ≤ 9 * 9 - 1) ∧
      (∃ x y, demoStart.isValid x y = true ∧ (demoStart.cellAt x y).hasMine = false ∧
        (x ≠ 5 ∨ y ≠ 5)) ∧
      ∃ samples, (∀ p ∈ samples, demoStart.isValid p.1 p.2 = true) ∧
        ∃ b2, Board.placeLoop 5 5 samples demoStart demoStart.mineCells.card = some b2 :=
  have h := placement_has_room 9 5 5 demoStart rfl
  have hcard : (demoStart.mineCells.card : Int) < demoStart.numMines := by
    rw [create_mineCells (show Board.create 9 = Except.ok demoStart from rfl)]
    decide
  have h1 := h.2.2 demoStart (by decide) rfl rfl hcard
  ⟨⟨h.1, h.2.1⟩, h1.1, h1.2 (by decide) (by decide)⟩

/-! ## Win check and the number of revealed cells -/

theorem checkWin_true_iff (b : Board) :
    b.checkWin = true ↔
      ∀ x y, b.isValid x y = true → (b.cellAt x y).isMine = false →
        (b.cellAt x y).isRevealed = true := by
  unfold Board.checkWin
  rw [all_loopRange]
  simp only [all_loopRange, isValid_iff, Cell.hasMine, Cell.isOpen]
  constructor
  · intro h x y hv hm
    have := h y hv.2.2.1 hv.2.2.2 x hv.1 hv.2.1
    simpa [hm] using this
  · intro h y hy1 hy2 x hx1 hx2
    have := h x y ⟨hx1, hx2, hy1, hy2⟩
    cases hm : (b.cellAt x y).isMine
    · simp [this hm]
    · simp

theorem mem_revealedCells (b : Board) (p : Int × Int) :
    p ∈ b.revealedCells ↔
      b.isValid p.1 p.2 = true ∧ (b.cellAt p.1 p.2).isRevealed = true := by
  simp only [Board.revealedCells, Finset.mem_filter, mem_cells]

theorem reachable_ge {n : Int} {b : Board} (h : Board.Reachable n b) : 9 ≤ n := by
  induction h with
  | init b hb => exact (create_eq hb).1
  | move _ _ _ _ _ _ _ _ _ ih => exact ih

theorem revealed_subset {b : Board}
    (hsafe : ∀ u v, (b.cellAt u v).isRevealed = true → (b.cellAt u v).isMine = false) :
    b.revealedCells ⊆ b.cells \ b.mineCells := by
  intro p hp
  rw [mem_revealedCells] at hp
  rw [Finset.mem_sdiff, mem_cells, mem_mineCells]
  refine ⟨hp.1, fun hm => ?_⟩
  have := hsafe _ _ hp.2
  rw [hm.2] at this
  exact absurd this (by simp)

theorem checkWin_iff_card {b : Board} (hsize : 0 ≤ b.size)
    (hsafe : ∀ u v, (b.cellAt u v).isRevealed = true → (b.cellAt u v).isMine = false) :
    b.checkWin = true ↔
      (b.revealedCells.card : Int) = b.size * b.size - b.mineCells.card := by
  have hsub := revealed_subset hsafe
  have hcard : ((b.cells \ b.mineCells).card : Int) = b.size * b.size - b.mineCells.card := by
    rw [Finset.card_sdiff (mineCells_subset b)]
    have := Finset.card_le_card (mineCells_subset b)
    push_cast [Nat.cast_sub this]
    rw [cells_card b hsize]
  rw [checkWin_true_iff, ← hcard]
  constructor
  · intro h
    have : b.revealedCells = b.cells \ b.mineCells := by
      apply Finset.Subset.antisymm hsub
      intro p hp
      rw [Finset.mem_sdiff, mem_cells, mem_mineCells] at hp
      rw [mem_revealedCells]
      refine ⟨hp.1, h _ _ hp.1 ?_⟩
      cases hm : (b.cellAt p.1 p.2).isMine
      · rfl
      · exact absurd ⟨hp.1, hm⟩ hp.2
    rw [this]
  · intro h x y hv hm
    have heq : b.revealedCells = b.cells \ b.mineCells :=
      Finset.eq_of_subset_of_card_le hsub (by exact_mod_cast h.ge)
    have hmem : (x, y) ∈ b.cells \ b.mineCells := by
      rw [Finset.mem_sdiff, mem_cells, mem_mineCells]
      exact ⟨hv, fun hc => by rw [hm] at hc; exact absurd hc.2 (by simp)⟩
    rw [← heq, mem_revealedCells] at hmem
    exact hmem.2

/-- In a state reachable from `Board(N)` whose stored `numMines` is not negative, `checkWin()`
returns true iff the number of revealed cells in `[1,N] x [1,N]` equals `N * N - numMines`. -/
theorem checkWin_iff_count_of_nonneg (n : Int) (b : Board) (hnn : 0 ≤ b.numMines)
    (h : Board.Reachable n b) :
    b.checkWin = true ↔ (b.revealedCells.card : Int) = n * n - b.numMines := by
  have h9 := reachable_ge h
  have hinv := inv_reachable h
  have hinv2 := inv2_reachable h
  have hle : b.numMines ≤ n * n - 1 := by
    rw [hinv2.numMines_eq]; exact numMines_le h9
  cases hfm : b.firstMove
  · have hm := hinv2.mines hfm
    rw [max_eq_right hnn] at hm
    rw [checkWin_iff_card (by rw [hinv2.size_eq]; omega) hinv.safe, hm, hinv2.size_eq]
  · have hfresh := hinv.fresh hfm
    have hnot : ¬ (b.checkWin = true) := by
      rw [checkWin_true_iff]
      intro hall
      have hv : b.isValid 1 1 = true := by
        rw [isValid_iff, hinv2.size_eq]; omega
      have := hall 1 1 hv (by rw [hfresh]; rfl)
      rw [hfresh] at this
      exact absurd this (by simp [Cell.create])
    have hempty : b.revealedCells = ∅ := by
      ext p
      simp [mem_revealedCells, hfresh, Cell.create]
    constructor
    · intro hw; exact absurd hw hnot
    · intro hc
      rw [hempty] at hc
      simp only [Finset.card_empty, Nat.cast_zero] at hc
      omega

end MineSweeper
